import Mathlib

/-!
Verification development for `jenkins-jobcfg.py`, a Python 2 tool that
edits Jenkins job configurations as YAML and manages a small credential
store.  The Python functions are shallowly embedded as Lean definitions:

* the credential resolver `jenkins_config` (store loading, effective
  identifier selection, verification, interactive retry, persistence),
* the `base64` encoding used for passwords at rest,
* the `push`/`create` filename filter (regular expression
  `^config-(.*)\.[^.]*$`) and the `.yaml`-conversion branch,
* the XML→YAML→XML structural converter built on `xmltodict`'s
  fold-dict semantics and PyYAML's scalar emission rules
  (`str_presenter` in the source).

Stateful code (file writes, chmod, network calls) is modelled by
explicit results: the network is a boolean oracle on credential
triples, and a run of `jenkins_config` returns the triple it would
return together with the store contents and file mode it would write.
-/

/-! ## Python truthiness helpers -/

/-- Python truthiness of an optional string: `None` and `''` are falsy.
Models expressions such as `config_url or os.getenv('JENKINS_URL')`. -/
def truthyS : Option String → Bool
  | none => false
  | some s => !(s == "")

/-- Python `a or b` on optional strings: returns `a` when truthy, else `b`. -/
def pyOr (a b : Option String) : Option String :=
  if truthyS a then a else b

/-! ## Ordered dictionaries (`collections.OrderedDict`)

The source keeps the credential store and all XML/YAML mappings in
insertion-ordered dictionaries.  We model them as association lists with
the exact `OrderedDict` update semantics: assigning to an existing key
replaces its value in place, assigning a fresh key appends it. -/

/-- `od[k] = v` on an `OrderedDict`: replace in place or append. -/
def odInsert {V : Type} (od : List (String × V)) (k : String) (v : V) :
    List (String × V) :=
  match od with
  | [] => [(k, v)]
  | p :: rest => if p.1 = k then (p.1, v) :: rest else p :: odInsert rest k v

/-- `OrderedDict(pairs)`: fold the pairs into an empty dict, so keys keep
first-occurrence order and a repeated key keeps its last value. -/
def odOfPairs {V : Type} (ps : List (String × V)) : List (String × V) :=
  ps.foldl (fun od p => odInsert od p.1 p.2) []

/-- `od.get(k)`: first entry with the given key, if any. -/
def odLookup {V : Type} (od : List (String × V)) (k : String) : Option V :=
  match od with
  | [] => none
  | p :: rest => if p.1 = k then some p.2 else odLookup rest k

/-- Keys of an ordered dictionary, in order. -/
def odKeys {V : Type} (od : List (String × V)) : List String :=
  od.map (·.1)

theorem odInsert_ne_nil {V : Type} (od : List (String × V)) (k : String) (v : V) :
    odInsert od k v ≠ [] := by
  cases od with
  | nil => simp [odInsert]
  | cons p rest => simp only [odInsert]; split <;> simp

theorem odLookup_insert_self {V : Type} (od : List (String × V)) (k : String) (v : V) :
    odLookup (odInsert od k v) k = some v := by
  induction od with
  | nil => simp [odInsert, odLookup]
  | cons p rest ih =>
    simp only [odInsert]
    by_cases h : p.1 = k
    · simp [h, odLookup]
    · simp [h, odLookup, ih]

theorem odLookup_insert_other {V : Type} (od : List (String × V)) (k k' : String)
    (v : V) (hne : k' ≠ k) : odLookup (odInsert od k v) k' = odLookup od k' := by
  induction od with
  | nil => simp [odInsert, odLookup, Ne.symm hne]
  | cons p rest ih =>
    simp only [odInsert]
    by_cases h : p.1 = k
    · subst h
      simp [odLookup, Ne.symm hne]
    · simp only [if_neg h, odLookup]
      by_cases h' : p.1 = k'
      · simp [h']
      · simp [h', ih]

theorem odKeys_insert_mem {V : Type} (od : List (String × V)) (k : String) (v : V)
    (h : k ∈ odKeys od) : odKeys (odInsert od k v) = odKeys od := by
  induction od with
  | nil => simp [odKeys] at h
  | cons p rest ih =>
    simp only [odKeys, List.map_cons] at h ⊢
    simp only [odInsert]
    by_cases hp : p.1 = k
    · simp [hp, odKeys]
    · rcases List.mem_cons.mp h with h1 | h2
      · exact absurd h1.symm hp
      · simpa [hp, odKeys] using ih h2

theorem odKeys_insert_not_mem {V : Type} (od : List (String × V)) (k : String) (v : V)
    (h : k ∉ odKeys od) : odKeys (odInsert od k v) = odKeys od ++ [k] := by
  induction od with
  | nil => simp [odKeys, odInsert]
  | cons p rest ih =>
    simp only [odKeys, List.map_cons, List.mem_cons] at h
    push_neg at h
    have hp : p.1 ≠ k := fun hp => h.1 hp.symm
    simp only [odInsert, if_neg hp, odKeys, List.map_cons, List.cons_append,
      List.cons.injEq, true_and]
    exact ih h.2

/-- The first key of `OrderedDict(pairs)` is the first key of `pairs`. -/
theorem odOfPairs_head_key {V : Type} (ps : List (String × V)) :
    (odOfPairs ps).head?.map (·.1) = ps.head?.map (·.1) := by
  have step : ∀ (qs : List (String × V)) (acc : List (String × V)), acc ≠ [] →
      (List.foldl (fun od p => odInsert od p.1 p.2) acc qs).head?.map (·.1) =
        acc.head?.map (·.1) := by
    intro qs
    induction qs with
    | nil => intro acc _; rfl
    | cons q qs ih =>
      intro acc hacc
      rw [List.foldl_cons, ih _ (odInsert_ne_nil _ _ _)]
      cases acc with
      | nil => exact absurd rfl hacc
      | cons p rest =>
        simp only [odInsert]
        split <;> simp
  cases ps with
  | nil => rfl
  | cons p ps =>
    unfold odOfPairs
    rw [List.foldl_cons, step ps _ (odInsert_ne_nil _ _ _)]
    simp [odInsert]

/-! ## base64 (`base64.b64encode` / `base64.b64decode`)

The password is stored base64-encoded (`base64.b64encode(getpass.getpass(...))`
in `jenkins_config`) and decoded again by `jenkins_request`
(`base64.b64decode(jenkins_pass)`).  We model the standard base64 codec on
byte lists (Python 2 `str` values are byte strings). -/

/-- The standard base64 alphabet. -/
def b64Alphabet : List Char :=
  ['A', 'B', 'C', 'D', 'E', 'F', 'G', 'H', 'I', 'J', 'K', 'L', 'M',
   'N', 'O', 'P', 'Q', 'R', 'S', 'T', 'U', 'V', 'W', 'X', 'Y', 'Z',
   'a', 'b', 'c', 'd', 'e', 'f', 'g', 'h', 'i', 'j', 'k', 'l', 'm',
   'n', 'o', 'p', 'q', 'r', 's', 't', 'u', 'v', 'w', 'x', 'y', 'z',
   '0', '1', '2', '3', '4', '5', '6', '7', '8', '9', '+', '/']

/-- Character for a six-bit group. -/
def sextetChar (n : Nat) : Char := b64Alphabet.getD n '='

/-- Index of a character in a list (length of the list when absent). -/
def idxOfChar (c : Char) : List Char → Nat
  | [] => 0
  | d :: rest => if d = c then 0 else idxOfChar c rest + 1

/-- Six-bit value of a base64 character. -/
def sextetOf (c : Char) : Nat := idxOfChar c b64Alphabet

/-- `base64.b64encode` on bytes: three bytes become four characters, with
`'='` padding for a final group of one or two bytes. -/
def b64encodeChars : List Nat → List Char
  | [] => []
  | [a] => [sextetChar (a / 4), sextetChar (a % 4 * 16), '=', '=']
  | [a, b] => [sextetChar (a / 4), sextetChar (a % 4 * 16 + b / 16),
               sextetChar (b % 16 * 4), '=']
  | a :: b :: c :: rest =>
    sextetChar (a / 4) :: sextetChar (a % 4 * 16 + b / 16) ::
    sextetChar (b % 16 * 4 + c / 64) :: sextetChar (c % 64) ::
    b64encodeChars rest

/-- `base64.b64decode` on characters: four characters become three bytes,
fewer when the group carries `'='` padding. -/
def b64decodeChars : List Char → List Nat
  | c1 :: c2 :: c3 :: c4 :: rest =>
    if c3 = '=' then [sextetOf c1 * 4 + sextetOf c2 / 16]
    else if c4 = '=' then
      [sextetOf c1 * 4 + sextetOf c2 / 16,
       sextetOf c2 % 16 * 16 + sextetOf c3 / 4]
    else
      (sextetOf c1 * 4 + sextetOf c2 / 16) ::
      (sextetOf c2 % 16 * 16 + sextetOf c3 / 4) ::
      (sextetOf c3 % 4 * 64 + sextetOf c4) ::
      b64decodeChars rest
  | _ => []

/-- The password is stored as a string; encoding produces ASCII characters. -/
def b64encodeStr (bs : List Nat) : String := String.mk (b64encodeChars bs)

/-- Decoding a stored password string back to secret bytes. -/
def b64decodeStr (s : String) : List Nat := b64decodeChars s.data

theorem sextet_sextetChar : ∀ n, n < 64 → sextetOf (sextetChar n) = n := by decide

theorem sextetChar_ne_pad : ∀ n, n < 64 → sextetChar n ≠ '=' := by decide

/-- Decoding inverts encoding on byte lists. -/
theorem b64decode_encode : ∀ bs : List Nat, (∀ b ∈ bs, b < 256) →
    b64decodeChars (b64encodeChars bs) = bs
  | [], _ => rfl
  | [a], h => by
    have ha : a < 256 := h a (by simp)
    have h1 : a / 4 < 64 := by omega
    have h2 : a % 4 * 16 < 64 := by omega
    simp only [b64encodeChars, b64decodeChars, if_true]
    simp only [sextet_sextetChar _ h1, sextet_sextetChar _ h2,
      List.cons.injEq, and_true]
    omega
  | [a, b], h => by
    have ha : a < 256 := h a (by simp)
    have hb : b < 256 := h b (by simp)
    have h1 : a / 4 < 64 := by omega
    have h2 : a % 4 * 16 + b / 16 < 64 := by omega
    have h3 : b % 16 * 4 < 64 := by omega
    simp only [b64encodeChars, b64decodeChars]
    rw [if_neg (sextetChar_ne_pad _ h3)]
    simp only [if_true, sextet_sextetChar _ h1, sextet_sextetChar _ h2,
      sextet_sextetChar _ h3, List.cons.injEq, and_true]
    constructor
    · omega
    · omega
  | a :: b :: c :: rest, h => by
    have ha : a < 256 := h a (by simp)
    have hb : b < 256 := h b (by simp)
    have hc : c < 256 := h c (by simp)
    have h1 : a / 4 < 64 := by omega
    have h2 : a % 4 * 16 + b / 16 < 64 := by omega
    have h3 : b % 16 * 4 + c / 64 < 64 := by omega
    have h4 : c % 64 < 64 := by omega
    have ih := b64decode_encode rest (fun x hx => h x (by simp [hx]))
    simp only [b64encodeChars, b64decodeChars]
    rw [if_neg (sextetChar_ne_pad _ h3), if_neg (sextetChar_ne_pad _ h4)]
    simp only [sextet_sextetChar _ h1, sextet_sextetChar _ h2,
      sextet_sextetChar _ h3, sextet_sextetChar _ h4, List.cons.injEq]
    exact ⟨by omega, by omega, by omega, ih⟩

/-- String-level inversion, as used for the stored password. -/
theorem b64decodeStr_encodeStr (bs : List Nat) (h : ∀ b ∈ bs, b < 256) :
    b64decodeStr (b64encodeStr bs) = bs :=
  b64decode_encode bs h

/-! ## Credential resolver (`jenkins_config`, source lines 103-169)

The store file is a YAML list of single-key mappings
`[{cfg1: {url: ..., username: ..., password: ...}}, {cfg2: {...}}]`.
We model a loaded store file as a list of items, each item a list of
`(identifier, entry)` pairs (an item is normally a single-key mapping).
`jenkins_config` flattens the items (`sum(map(lambda d: d.items(), ...), [])`),
builds an `OrderedDict`, selects the effective identifier with the Python
`or`-chain, verifies, prompts on failure, and on a successful re-check
writes the updated store back and chmods it to `0o600`.

Interactive input and the network are parameters: `net` says whether a GET
of `/api/json` with given credentials returns status 200 (an exception or a
non-200 status are both `false`, matching the bare `except` clauses), the
prompt replies are strings (`""` models pressing enter), and the secret is
the byte string returned by `getpass.getpass`. -/

/-- An entry of the credential store; absent keys read as `None`
(`config_dict.get('url', None)` and friends). -/
structure CfgEntry where
  url : Option String
  username : Option String
  password : Option String
deriving DecidableEq

/-- A loaded store file: a list of mappings (normally single-key each). -/
abbrev StoreFile : Type := List (List (String × CfgEntry))

/-- A credential triple `(jenkins_url, jenkins_user, jenkins_pass)`. -/
abbrev Triple : Type := Option String × Option String × Option String

/-- `sum(map(lambda d: d.items(), all_configs), [])`. -/
def flattenStore (sf : StoreFile) : List (String × CfgEntry) := sf.flatten

/-- The `OrderedDict` of all configurations built by `jenkins_config`. -/
def allConfigsOf (sf : StoreFile) : List (String × CfgEntry) :=
  odOfPairs (flattenStore sf)

/-- `config_id or (all_configs and all_configs.keys()[0]) or 'default'`:
the given identifier when truthy, else the first key when the dict is
non-empty and that key is truthy, else the literal `'default'`. -/
def effId (all : List (String × CfgEntry)) (cfgId : Option String) : String :=
  let fb : String :=
    match all with
    | [] => "default"
    | p :: _ => if p.1 = "" then "default" else p.1
  match cfgId with
  | none => fb
  | some s => if s = "" then fb else s

/-- `all_configs.get(config_id, {})` followed by the three `.get` calls. -/
def entryOf (sf : StoreFile) (cfgId : Option String) : CfgEntry :=
  (odLookup (allConfigsOf sf) (effId (allConfigsOf sf) cfgId)).getD
    ⟨none, none, none⟩

/-- The triple read from the store before any prompting. -/
def storedTripleOf (sf : StoreFile) (cfgId : Option String) : Triple :=
  ((entryOf sf cfgId).url, (entryOf sf cfgId).username, (entryOf sf cfgId).password)

/-- `jenkins_check_config`: asserts all three fields truthy, then needs a
status-200 response; any exception is a failure for the caller. -/
def jenkins_check_config (net : Triple → Bool) (t : Triple) : Bool :=
  truthyS t.1 && truthyS t.2.1 && truthyS t.2.2 && net t

/-- URL entered at the prompt: the typed reply if non-empty, else the
default `config_url or os.getenv('JENKINS_URL')`. -/
def freshUrl (sf : StoreFile) (cfgId : Option String) (envUrl : Option String)
    (inUrl : String) : Option String :=
  if inUrl = "" then pyOr (entryOf sf cfgId).url envUrl else some inUrl

/-- Username entered at the prompt, defaulting to
`config_usr or os.getenv('USER')`. -/
def freshUsr (sf : StoreFile) (cfgId : Option String) (envUser : Option String)
    (inUsr : String) : Option String :=
  if inUsr = "" then pyOr (entryOf sf cfgId).username envUser else some inUsr

/-- The entry built from the interactive replies; the password is the
base64 encoding of the secret typed at the `getpass` prompt. -/
def freshEntry (sf : StoreFile) (cfgId : Option String)
    (envUrl envUser : Option String) (inUrl inUsr : String)
    (secret : List Nat) : CfgEntry :=
  ⟨freshUrl sf cfgId envUrl inUrl, freshUsr sf cfgId envUser inUsr,
   some (b64encodeStr secret)⟩

/-- The triple re-verified after prompting. -/
def freshTripleOf (sf : StoreFile) (cfgId : Option String)
    (envUrl envUser : Option String) (inUrl inUsr : String)
    (secret : List Nat) : Triple :=
  ((freshEntry sf cfgId envUrl envUser inUrl inUsr secret).url,
   (freshEntry sf cfgId envUrl envUser inUrl inUsr secret).username,
   (freshEntry sf cfgId envUrl envUser inUrl inUsr secret).password)

/-- The store file contents written on a successful re-check: the updated
`OrderedDict` rendered as one single-key mapping per list item
(`map(lambda (k, v): {k: v}, all_configs.items())`). -/
def writtenStoreOf (sf : StoreFile) (cfgId : Option String)
    (envUrl envUser : Option String) (inUrl inUsr : String)
    (secret : List Nat) : StoreFile :=
  (odInsert (allConfigsOf sf) (effId (allConfigsOf sf) cfgId)
    (freshEntry sf cfgId envUrl envUser inUrl inUsr secret)).map (fun p => [p])

/-- Outcome of one run of `jenkins_config`: the returned triple (`none`
models `sys.exit(1)`), and the store file contents plus mode that were
written (`none` when no write happened). -/
structure ConfigResult where
  triple : Option Triple
  written : Option (StoreFile × Nat)
deriving DecidableEq

/-- One run of `jenkins_config(config_file, config_id)`: try the stored
entry; on failure prompt, re-check, and on success upsert the entry, write
every configuration back as a single-key mapping per list item
(`map(lambda (k, v): {k: v}, all_configs.items())`) and chmod the file to
`0o600`; on a second failure exit with an error. -/
def jenkins_config_model (sf : StoreFile) (cfgId : Option String)
    (net : Triple → Bool) (envUrl envUser : Option String)
    (inUrl inUsr : String) (secret : List Nat) : ConfigResult :=
  if jenkins_check_config net (storedTripleOf sf cfgId) then
    ⟨some (storedTripleOf sf cfgId), none⟩
  else if jenkins_check_config net
      (freshTripleOf sf cfgId envUrl envUser inUrl inUsr secret) then
    ⟨some (freshTripleOf sf cfgId envUrl envUser inUrl inUsr secret),
     some (writtenStoreOf sf cfgId envUrl envUser inUrl inUsr secret, 0o600)⟩
  else ⟨none, none⟩

/-- Basic-auth pair used by `jenkins_request`:
`auth=(jenkins_user, base64.b64decode(jenkins_pass))`. -/
def jenkins_request_auth (usr : Option String) (pwd : String) :
    Option String × List Nat :=
  (usr, b64decodeStr pwd)

/-! ## Claims C3, C4, C5, C10 -/

/-- C3, counterexample: `jenkins_config` does NOT always use a supplied
identifier.  For the store `[{cfg1: ...}]` and the explicitly supplied
identifier `""`, the Python `or`-chain treats the supplied identifier as
falsy and selects `cfg1` instead of `""`. -/
theorem c3_counterexample :
    effId (allConfigsOf
        [[("cfg1", (⟨some "http://j", some "bob", some "cGFzcw=="⟩ : CfgEntry))]])
      (some "") = "cfg1" ∧ "cfg1" ≠ "" := by
  exact ⟨rfl, by decide⟩

/-- C3 (amended): `jenkins_config` selects the effective identifier as the
given identifier when a NON-EMPTY one is supplied (an empty supplied
identifier is falsy and is ignored by the `or`-chain); otherwise the key of
the store's first entry when the store is non-empty and that key is
non-empty; otherwise the literal string `"default"`. -/
theorem c3_identifier_selection (sf : StoreFile) (cfgId : Option String) :
    (∀ s, cfgId = some s → s ≠ "" →
      effId (allConfigsOf sf) cfgId = s) ∧
    (cfgId = none → ∀ k e ps rest, sf = ((k, e) :: ps) :: rest → k ≠ "" →
      effId (allConfigsOf sf) cfgId = k) ∧
    (cfgId = none → sf = [] →
      effId (allConfigsOf sf) cfgId = "default") := by
  refine ⟨?_, ?_, ?_⟩
  · intro s hs hne
    subst hs
    simp [effId, hne]
  · intro hnone k e ps rest hsf hk
    subst hnone; subst hsf
    have hflat : flattenStore (((k, e) :: ps) :: rest) =
        (k, e) :: (ps ++ flattenStore rest) := by
      simp [flattenStore]
    have hhead : (allConfigsOf (((k, e) :: ps) :: rest)).head?.map (·.1) =
        some k := by
      unfold allConfigsOf
      rw [hflat, odOfPairs_head_key]
      rfl
    unfold effId
    cases hall : allConfigsOf (((k, e) :: ps) :: rest) with
    | nil => rw [hall] at hhead; simp at hhead
    | cons p tl =>
      rw [hall] at hhead
      simp only [List.head?_cons, Option.map_some] at hhead
      have hp : p.1 = k := by exact Option.some.inj hhead
      simp [hp, hk]
  · intro hnone hsf
    subst hnone; subst hsf
    rfl

/-- C3, witness for the amended claim at concrete inputs: a two-entry
store with no supplied identifier selects `cfg1`. -/
theorem c3_witness :
    effId (allConfigsOf
        [[("cfg1", (⟨some "http://j", some "bob", some "cGFzcw=="⟩ : CfgEntry))],
         [("cfg2", (⟨some "http://k", some "eve", some "cGFzcw=="⟩ : CfgEntry))]])
      none = "cfg1" :=
  (c3_identifier_selection _ none).2.1 rfl "cfg1" _ [] _ rfl (by decide)

/-- C5: when the stored credentials verify on the first attempt,
`jenkins_config` returns that triple unchanged and nothing is written;
and a write happens only on the path where the stored check failed and
the check of the freshly prompted credentials succeeded. -/
theorem c5_write_only_on_fresh_success (sf : StoreFile) (cfgId : Option String)
    (net : Triple → Bool) (envUrl envUser : Option String)
    (inUrl inUsr : String) (secret : List Nat) :
    (jenkins_check_config net (storedTripleOf sf cfgId) = true →
      jenkins_config_model sf cfgId net envUrl envUser inUrl inUsr secret =
        ⟨some (storedTripleOf sf cfgId), none⟩) ∧
    (∀ ws m,
      (jenkins_config_model sf cfgId net envUrl envUser inUrl inUsr secret).written
          = some (ws, m) →
      jenkins_check_config net (storedTripleOf sf cfgId) = false ∧
      jenkins_check_config net
        (freshTripleOf sf cfgId envUrl envUser inUrl inUsr secret) = true) := by
  constructor
  · intro h
    simp [jenkins_config_model, h]
  · intro ws m h
    by_cases h1 : jenkins_check_config net (storedTripleOf sf cfgId) = true
    · simp [jenkins_config_model, h1] at h
    · by_cases h2 : jenkins_check_config net
          (freshTripleOf sf cfgId envUrl envUser inUrl inUsr secret) = true
      · exact ⟨by simpa using h1, h2⟩
      · simp [jenkins_config_model, Bool.of_not_eq_true h1,
          Bool.of_not_eq_true h2] at h

/-- C5, witness: with a complete stored entry and a network accepting it,
the run returns the stored triple and writes nothing. -/
theorem c5_witness :
    jenkins_check_config (fun _ => true)
      (storedTripleOf
        [[("cfg1", (⟨some "http://j", some "bob", some "cGFzcw=="⟩ : CfgEntry))]]
        (some "cfg1")) = true ∧
    jenkins_config_model
      [[("cfg1", (⟨some "http://j", some "bob", some "cGFzcw=="⟩ : CfgEntry))]]
      (some "cfg1") (fun _ => true) none none "" "" [] =
    ⟨some (storedTripleOf
        [[("cfg1", (⟨some "http://j", some "bob", some "cGFzcw=="⟩ : CfgEntry))]]
        (some "cfg1")), none⟩ :=
  ⟨by decide,
   (c5_write_only_on_fresh_success _ _ _ _ _ _ _ _).1 (by decide)⟩

/-- C4: when the freshly entered credentials verify, `jenkins_config`
upserts the entry under the effective identifier (overwriting an entry
with that identifier in place, preserving the order of the other
entries), writes the whole store back with the password base64-encoded,
and sets the file mode to `0o600`; from an empty store the written file
holds exactly one entry, keyed by the effective identifier. -/
theorem c4_persistence_on_success (sf : StoreFile) (cfgId : Option String)
    (net : Triple → Bool) (envUrl envUser : Option String)
    (inUrl inUsr : String) (secret : List Nat)
    (h1 : jenkins_check_config net (storedTripleOf sf cfgId) = false)
    (h2 : jenkins_check_config net
      (freshTripleOf sf cfgId envUrl envUser inUrl inUsr secret) = true) :
    (jenkins_config_model sf cfgId net envUrl envUser inUrl inUsr secret).written
        = some (writtenStoreOf sf cfgId envUrl envUser inUrl inUsr secret, 0o600) ∧
    (freshEntry sf cfgId envUrl envUser inUrl inUsr secret).password
        = some (b64encodeStr secret) ∧
    odLookup
        (odInsert (allConfigsOf sf) (effId (allConfigsOf sf) cfgId)
          (freshEntry sf cfgId envUrl envUser inUrl inUsr secret))
        (effId (allConfigsOf sf) cfgId)
      = some (freshEntry sf cfgId envUrl envUser inUrl inUsr secret) ∧
    (∀ k, k ≠ effId (allConfigsOf sf) cfgId →
      odLookup
        (odInsert (allConfigsOf sf) (effId (allConfigsOf sf) cfgId)
          (freshEntry sf cfgId envUrl envUser inUrl inUsr secret)) k
      = odLookup (allConfigsOf sf) k) ∧
    (effId (allConfigsOf sf) cfgId ∈ odKeys (allConfigsOf sf) →
      odKeys (odInsert (allConfigsOf sf) (effId (allConfigsOf sf) cfgId)
          (freshEntry sf cfgId envUrl envUser inUrl inUsr secret))
        = odKeys (allConfigsOf sf)) ∧
    (effId (allConfigsOf sf) cfgId ∉ odKeys (allConfigsOf sf) →
      odKeys (odInsert (allConfigsOf sf) (effId (allConfigsOf sf) cfgId)
          (freshEntry sf cfgId envUrl envUser inUrl inUsr secret))
        = odKeys (allConfigsOf sf) ++ [effId (allConfigsOf sf) cfgId]) ∧
    (sf = [] → writtenStoreOf sf cfgId envUrl envUser inUrl inUsr secret
        = [[(effId (allConfigsOf sf) cfgId,
             freshEntry sf cfgId envUrl envUser inUrl inUsr secret)]]) := by
  refine ⟨?_, rfl, odLookup_insert_self _ _ _,
    fun k hk => odLookup_insert_other _ _ _ _ hk,
    fun hmem => odKeys_insert_mem _ _ _ hmem,
    fun hmem => odKeys_insert_not_mem _ _ _ hmem, ?_⟩
  · simp [jenkins_config_model, h1, h2]
  · intro hsf
    subst hsf
    rfl

/-- C4, witness: from an empty store with identifier `cfgX`, defaults from
the environment and the secret bytes of `"s3c"`, the run writes exactly
one entry keyed `cfgX` with the base64 password `czNj`, mode `0o600`. -/
theorem c4_witness :
    jenkins_check_config (fun _ => true) (storedTripleOf [] (some "cfgX")) = false ∧
    (jenkins_config_model [] (some "cfgX") (fun _ => true)
        (some "http://j") (some "alice") "" "" [115, 51, 99]).written =
      some ([[("cfgX",
        (⟨some "http://j", some "alice", some "czNj"⟩ : CfgEntry))]], 0o600) := by
  refine ⟨by decide, ?_⟩
  have h := (c4_persistence_on_success [] (some "cfgX") (fun _ => true)
    (some "http://j") (some "alice") "" "" [115, 51, 99]
    (by decide) (by decide)).1
  rw [h]
  decide

/-- C10: the triple returned by `jenkins_config` carries the password in
its at-rest form: on the stored-entry path it is returned unchanged from
the store, and on the prompting path it is the base64 encoding of the
typed secret; `jenkins_request` base64-decodes that password for the
basic-auth credential, recovering exactly the typed secret bytes. -/
theorem c10_password_base64 (sf : StoreFile) (cfgId : Option String)
    (net : Triple → Bool) (envUrl envUser : Option String)
    (inUrl inUsr : String) (secret : List Nat) :
    (∀ t, (jenkins_config_model sf cfgId net envUrl envUser inUrl inUsr secret).triple
          = some t →
      (jenkins_config_model sf cfgId net envUrl envUser inUrl inUsr secret).written
          = none →
      t = storedTripleOf sf cfgId) ∧
    (∀ t, (jenkins_config_model sf cfgId net envUrl envUser inUrl inUsr secret).triple
          = some t →
      (jenkins_config_model sf cfgId net envUrl envUser inUrl inUsr secret).written
          ≠ none →
      t.2.2 = some (b64encodeStr secret) ∧
      ((∀ b ∈ secret, b < 256) →
        jenkins_request_auth t.2.1 (b64encodeStr secret) = (t.2.1, secret))) := by
  constructor
  · intro t ht hw
    by_cases h1 : jenkins_check_config net (storedTripleOf sf cfgId) = true
    · simp [jenkins_config_model, h1] at ht
      exact ht.symm
    · by_cases h2 : jenkins_check_config net
          (freshTripleOf sf cfgId envUrl envUser inUrl inUsr secret) = true
      · simp [jenkins_config_model, Bool.of_not_eq_true h1, h2] at hw
      · simp [jenkins_config_model, Bool.of_not_eq_true h1,
          Bool.of_not_eq_true h2] at ht
  · intro t ht hw
    by_cases h1 : jenkins_check_config net (storedTripleOf sf cfgId) = true
    · simp [jenkins_config_model, h1] at hw
    · by_cases h2 : jenkins_check_config net
          (freshTripleOf sf cfgId envUrl envUser inUrl inUsr secret) = true
      · simp only [jenkins_config_model, Bool.of_not_eq_true h1, h2] at ht
        simp only [Bool.false_eq_true, if_false, if_true, Option.some.injEq] at ht
        constructor
        · rw [← ht]
          rfl
        · intro hbytes
          unfold jenkins_request_auth
          rw [b64decodeStr_encodeStr secret hbytes]
      · simp [jenkins_config_model, Bool.of_not_eq_true h1,
          Bool.of_not_eq_true h2] at ht

/-- C10, witness: on the prompting path with secret bytes `"s3c"`, the
returned password is `some "czNj"` and decoding it for basic auth yields
the original secret bytes. -/
theorem c10_witness :
    ((jenkins_config_model [] (some "cfgX") (fun _ => true)
        (some "http://j") (some "alice") "" "" [115, 51, 99]).triple
      = some (freshTripleOf [] (some "cfgX") (some "http://j") (some "alice")
          "" "" [115, 51, 99])) ∧
    (freshTripleOf [] (some "cfgX") (some "http://j") (some "alice")
        "" "" [115, 51, 99]).2.2 = some (b64encodeStr [115, 51, 99]) ∧
    jenkins_request_auth (some "alice") (b64encodeStr [115, 51, 99])
      = (some "alice", [115, 51, 99]) := by
  refine ⟨by decide, ?_, ?_⟩
  · exact ((c10_password_base64 [] (some "cfgX") (fun _ => true)
      (some "http://j") (some "alice") "" "" [115, 51, 99]).2
      (freshTripleOf [] (some "cfgX") (some "http://j") (some "alice")
        "" "" [115, 51, 99]) (by decide) (by decide)).1
  · have h := (((c10_password_base64 [] (some "cfgX") (fun _ => true)
      (some "http://j") (some "alice") "" "" [115, 51, 99]).2
      (freshTripleOf [] (some "cfgX") (some "http://j") (some "alice")
        "" "" [115, 51, 99]) (by decide) (by decide)).2 (by decide))
    simpa using h

/-! ## Push/create filename filter (`__main__` push loop, lines 338-345,
and `jenkins_push_config`, lines 229-242)

Each file name in a `push` or `create` batch is matched against the
Python regular expression `^config-(.*)\.[^.]*$` (where `.` does not
match a newline and `[^.]*` matches any characters except `.`): the file
matches exactly when it is `config-<name>.<ext>` with a newline-free
`<name>` and a dot-free `<ext>`, and the greedy `(.*)` makes `<name>`
everything up to the LAST dot.  A non-matching file is skipped with a
warning and the loop continues.  For a matching file,
`jenkins_push_config` converts the content with `yaml2xml` exactly when
the file name ends in `.yaml`, and otherwise posts the raw content. -/

/-- `charsStart pat s`: `pat` is a leading segment of `s`. -/
def charsStart : List Char → List Char → Bool
  | [], _ => true
  | _ :: _, [] => false
  | p :: ps, c :: cs => p = c && charsStart ps cs

/-- `endsWithChars s pat`: `s` ends with the segment `pat`
(Python `str.endswith`). -/
def endsWithChars (s pat : List Char) : Bool :=
  charsStart pat.reverse s.reverse

/-- Split a character list around its last `'.'`:
`splitLastDot cs = some (p, e)` when `cs = p ++ '.' :: e` with `'.' ∉ e`,
`none` when `cs` has no dot. -/
def splitLastDot : List Char → Option (List Char × List Char)
  | [] => none
  | c :: rest =>
    match splitLastDot rest with
    | some (p, e) => some (c :: p, e)
    | none => if c = '.' then some ([], rest) else none

/-- `re.match('^config-(.*)\.[^.]*$', s)`: the captured group, if any.
The greedy `(.*)` captures up to the last dot and cannot cross a newline;
`[^.]*` forces the extension to be dot-free. -/
def configMatch (s : String) : Option String :=
  if charsStart "config-".data s.data then
    match splitLastDot (s.data.drop 7) with
    | some (p, _) => if '\n' ∈ p then none else some (String.mk p)
    | none => none
  else none

/-- What `jenkins_push_config` posts for a file: the content converted by
`yaml2xml` when the file name ends in `.yaml`, the raw file content
otherwise. -/
inductive PushPayload where
  | raw (content : String)
  | converted (content : String)
deriving DecidableEq

/-- The `.yaml` branch of `jenkins_push_config` / `jenkins_create_job`:
`if job_config_file.endswith('.yaml'): data = yaml2xml(data)`. -/
def jenkins_push_payload (file content : String) : PushPayload :=
  if endsWithChars file.data ".yaml".data then .converted content
  else .raw content

/-- Outcome of one iteration of the `push` loop for one file name. -/
inductive PushOutcome where
  | skipped (file : String)
  | pushed (job : String) (file : String) (payload : PushPayload)
deriving DecidableEq

/-- One iteration of the `push` loop: warn and skip on a non-matching
name, else call `jenkins_push_config` with the captured job name. -/
def push_step (content : String → String) (file : String) : PushOutcome :=
  match configMatch file with
  | none => .skipped file
  | some job => .pushed job file (jenkins_push_payload file (content file))

/-- The whole `push` batch loop: every file is processed in order, and a
skip never stops the loop. -/
def push_loop (content : String → String) (files : List String) :
    List PushOutcome :=
  files.map (push_step content)

theorem charsStart_eq_true {p s : List Char} :
    charsStart p s = true ↔ ∃ t, s = p ++ t := by
  induction p generalizing s with
  | nil => simp [charsStart]
  | cons c p ih =>
    cases s with
    | nil => simp [charsStart]
    | cons d s =>
      simp only [charsStart, Bool.and_eq_true, decide_eq_true_eq, ih,
        List.cons_append, List.cons.injEq]
      aesop

theorem splitLastDot_no_dot {cs : List Char} (h : '.' ∉ cs) :
    splitLastDot cs = none := by
  induction cs with
  | nil => rfl
  | cons c rest ih =>
    simp only [List.mem_cons, not_or] at h
    simp [splitLastDot, ih h.2, h.1, Ne.symm h.1]

theorem splitLastDot_append {name ext : List Char} (h : '.' ∉ ext) :
    splitLastDot (name ++ '.' :: ext) = some (name, ext) := by
  induction name with
  | nil => simp [splitLastDot, splitLastDot_no_dot h]
  | cons c name ih => simp [splitLastDot, ih]

/-- Uniqueness of the split around the last dot. -/
theorem splitLastDot_unique {p₁ e₁ p₂ e₂ : List Char}
    (h : p₁ ++ '.' :: e₁ = p₂ ++ '.' :: e₂)
    (h₁ : '.' ∉ e₁) (h₂ : '.' ∉ e₂) : p₁ = p₂ ∧ e₁ = e₂ := by
  induction p₁ generalizing p₂ with
  | nil =>
    cases p₂ with
    | nil => simpa using h
    | cons d p₂ =>
      simp only [List.nil_append, List.cons_append, List.cons.injEq] at h
      exact absurd (h.2 ▸ List.mem_append_right p₂ (List.mem_cons_self '.' e₂))
        h₁
  | cons c p₁ ih =>
    cases p₂ with
    | nil =>
      simp only [List.nil_append, List.cons_append, List.cons.injEq] at h
      exact absurd (h.2.symm ▸ List.mem_append_right p₁ (List.mem_cons_self '.' e₁))
        h₂
    | cons d p₂ =>
      simp only [List.cons_append, List.cons.injEq] at h
      obtain ⟨he, hes⟩ := ih h.2
      exact ⟨by rw [h.1, he], hes⟩

theorem endsWithChars_eq_true {s pat : List Char} :
    endsWithChars s pat = true ↔ ∃ t, s = t ++ pat := by
  unfold endsWithChars
  rw [charsStart_eq_true]
  constructor
  · rintro ⟨t, ht⟩
    refine ⟨t.reverse, ?_⟩
    have h := congrArg List.reverse ht
    simpa using h
  · rintro ⟨t, ht⟩
    exact ⟨t.reverse, by simp [ht]⟩

/-- A file name of the shape `config-<name>.<ext>` with dot-free `<ext>`
ends in `.yaml` exactly when `<ext>` is `yaml`. -/
theorem endsWith_yaml_iff (name ext : String) (he : '.' ∉ ext.data) :
    endsWithChars ("config-" ++ name ++ "." ++ ext).data ".yaml".data = true ↔
      ext = "yaml" := by
  have hsplit : ("config-" ++ name ++ "." ++ ext).data =
      ("config-".data ++ name.data) ++ '.' :: ext.data := by
    simp [String.data_append]
  constructor
  · intro h
    obtain ⟨t, ht⟩ := endsWithChars_eq_true.mp h
    have hyd : (".yaml").data = '.' :: "yaml".data := rfl
    rw [hsplit, hyd] at ht
    have hu := splitLastDot_unique ht he (by decide)
    have hdata : ext.data = "yaml".data := hu.2
    exact congrArg String.mk hdata
  · intro h
    subst h
    refine endsWithChars_eq_true.mpr ⟨"config-".data ++ name.data, ?_⟩
    rw [hsplit]

/-- C8: during a batch push, the file name `notaconfig.txt` does not match
`^config-(.*)\.[^.]*$`, so it is skipped with a warning while every file
before and after it in the batch is still processed; the step function is
total, so no exception propagates. -/
theorem c8_nonmatching_file_skipped (content : String → String)
    (pre post : List String) :
    push_loop content (pre ++ "notaconfig.txt" :: post) =
      push_loop content pre ++
        PushOutcome.skipped "notaconfig.txt" :: push_loop content post := by
  have hm : configMatch "notaconfig.txt" = none := by decide
  simp only [push_loop, List.map_append, List.map_cons, List.append_cancel_left_eq,
    List.cons.injEq, and_true, true_and]
  simp [push_step, hm]

/-- C9: the push/create filter accepts `config-<name>.<ext>` for ANY
dot-free extension (not only `xml`/`yaml`), capturing `<name>` up to the
last dot; the content is converted by `yaml2xml` exactly when the file
name ends in `.yaml`, and a file with any other accepted extension is
pushed with its raw content rather than skipped. -/
theorem c9_any_extension_accepted (name ext content : String)
    (hn : '\n' ∉ name.data) (he : '.' ∉ ext.data) :
    configMatch ("config-" ++ name ++ "." ++ ext) = some name ∧
    (jenkins_push_payload ("config-" ++ name ++ "." ++ ext) content =
        PushPayload.converted content ↔ ext = "yaml") ∧
    (ext ≠ "yaml" →
      jenkins_push_payload ("config-" ++ name ++ "." ++ ext) content =
        PushPayload.raw content) ∧
    push_step (fun _ => content) ("config-" ++ name ++ "." ++ ext) =
      PushOutcome.pushed name ("config-" ++ name ++ "." ++ ext)
        (jenkins_push_payload ("config-" ++ name ++ "." ++ ext) content) := by
  have hsplit : ("config-" ++ name ++ "." ++ ext).data =
      "config-".data ++ (name.data ++ '.' :: ext.data) := by
    simp [String.data_append]
  have hmatch : configMatch ("config-" ++ name ++ "." ++ ext) = some name := by
    unfold configMatch
    have h1 : charsStart "config-".data
        ("config-" ++ name ++ "." ++ ext).data = true :=
      charsStart_eq_true.mpr ⟨name.data ++ '.' :: ext.data, hsplit⟩
    rw [if_pos h1, hsplit]
    have hlen : ("config-".data).length = 7 := rfl
    have hd : ("config-".data ++ (name.data ++ '.' :: ext.data)).drop 7 =
        name.data ++ '.' :: ext.data := by
      rw [← hlen]
      exact List.drop_left _ _
    rw [hd, splitLastDot_append he]
    simp [hn]
  have hiff := endsWith_yaml_iff name ext he
  by_cases hy : ext = "yaml"
  · refine ⟨hmatch, ?_, ?_, ?_⟩
    · have ht := hiff.mpr hy
      unfold jenkins_push_payload
      rw [ht]
      simp [hy]
    · intro h; exact absurd hy h
    · simp [push_step, hmatch]
  · have hf : endsWithChars ("config-" ++ name ++ "." ++ ext).data
        ".yaml".data = false := by
      cases hb : endsWithChars ("config-" ++ name ++ "." ++ ext).data ".yaml".data
      · rfl
      · exact absurd (hiff.mp hb) hy
    refine ⟨hmatch, ?_, ?_, ?_⟩
    · unfold jenkins_push_payload
      rw [hf]
      simp [hy]
    · intro _
      unfold jenkins_push_payload
      rw [hf]
      simp
    · simp [push_step, hmatch]

/-- C9, witness: `config-job.txt` is accepted with job name `job` and its
raw content is pushed unconverted. -/
theorem c9_witness :
    configMatch "config-job.txt" = some "job" ∧
    jenkins_push_payload "config-job.txt" "body" = PushPayload.raw "body" ∧
    push_step (fun _ => "body") "config-job.txt" =
      PushOutcome.pushed "job" "config-job.txt" (PushPayload.raw "body") := by
  have h := c9_any_extension_accepted "job" "txt" "body" (by decide) (by decide)
  refine ⟨h.1, h.2.2.1 (by decide), ?_⟩
  have h4 := h.2.2.2
  rw [h.2.2.1 (by decide)] at h4
  exact h4

/-! ## Multiline scalar emission (`str_presenter`, source lines 67-77)

`xml2yaml` installs `str_presenter` as the PyYAML representer for text:
when `len(data.splitlines()) > 1` it removes `'\r'` characters and
requests block-literal style (`style='|'`); otherwise it represents the
plain scalar.  PyYAML's emitter honours the requested `'|'` style only
when its scalar analysis allows block style: the scalar must be
non-empty, contain no special characters (under `allow_unicode=True`),
not end in a space, and have no space immediately before a line break
(`analyze_scalar` in PyYAML's emitter); otherwise it silently falls back
to a quoted style — the source comment "remove special characters or
block style wont be allowed" refers to exactly this analysis. -/

/-- Python `unicode.splitlines` boundary characters (by code point:
LF, CR, VT, FF, FS, GS, RS, NEL, LINE SEPARATOR, PARAGRAPH SEPARATOR). -/
def isPyBoundary (c : Char) : Bool :=
  let n := c.toNat
  n = 0xa || n = 0xd || n = 0xb || n = 0xc ||
  n = 0x1c || n = 0x1d || n = 0x1e || n = 0x85 ||
  n = 0x2028 || n = 0x2029

/-- Worker for Python `splitlines`: `acc` is the current (partial) line;
`'\r\n'` counts as a single boundary; a trailing boundary opens no new
line. -/
def splitlinesAux : List Char → List Char → List (List Char)
  | [], acc => if acc.isEmpty then [] else [acc]
  | '\r' :: '\n' :: rest, acc => acc :: splitlinesAux rest []
  | '\r' :: rest, acc => acc :: splitlinesAux rest []
  | c :: rest, acc =>
    if isPyBoundary c then acc :: splitlinesAux rest []
    else splitlinesAux rest (acc ++ [c])

/-- Python `s.splitlines()`. -/
def pySplitlines (s : String) : List String :=
  (splitlinesAux s.data []).map String.mk

/-- The `str_presenter` multiline test: `len(data.splitlines()) > 1`. -/
def pyMultiline (s : String) : Bool :=
  decide (1 < (pySplitlines s).length)

/-- `data.replace('\r', '')`. -/
def removeCR (s : String) : String :=
  String.mk (s.data.filter (fun c => c != '\r'))

/-- `str_presenter`: the scalar text handed to the emitter and whether
block-literal style `'|'` is requested. -/
def str_presenter (s : String) : String × Bool :=
  if pyMultiline s then (removeCR s, true) else (s, false)

/-- YAML break characters in PyYAML's scalar analysis
(LF, NEL, LINE SEPARATOR, PARAGRAPH SEPARATOR). -/
def isYamlBreak (c : Char) : Bool :=
  let n := c.toNat
  n = 0xa || n = 0x85 || n = 0x2028 || n = 0x2029

/-- Special characters per PyYAML `analyze_scalar` with
`allow_unicode=True`: anything that is neither `'\n'`, printable ASCII,
nor allowed non-BOM unicode. -/
def isSpecialChar (c : Char) : Bool :=
  let n := c.toNat
  !(n = 0xa || (0x20 ≤ n && n ≤ 0x7e) ||
    ((n = 0x85 || (0xa0 ≤ n && n ≤ 0xd7ff) || (0xe000 ≤ n && n ≤ 0xfffd) ||
      (0x10000 ≤ n && n < 0x10ffff)) && !(n = 0xfeff)))

/-- `space_break` in `analyze_scalar`: a space immediately followed by a
break character. -/
def hasSpaceBreak : List Char → Bool
  | [] => false
  | [_] => false
  | c :: d :: rest => (c = ' ' && isYamlBreak d) || hasSpaceBreak (d :: rest)

/-- `allow_block` in `analyze_scalar` for the dumped scalar: non-empty,
no special characters, no trailing space, no space-before-break. -/
def allowBlock (s : String) : Bool :=
  !(s == "") && s.data.all (fun c => !isSpecialChar c) &&
  !(s.data.getLast? == some ' ') && !hasSpaceBreak s.data

/-- Whether the text of an element is actually emitted in block-literal
style by `xml2yaml`: `str_presenter` must request `'|'` and the emitter's
analysis must allow block style for the (carriage-return-stripped) text. -/
def emittedBlock (s : String) : Bool :=
  (str_presenter s).2 && allowBlock (str_presenter s).1

/-- C6, counterexample: the multiline text `"a \nb"` (first line ends in
a space) is NOT emitted as a block-literal scalar: PyYAML's analysis
forbids block style for a space-before-break, and the emitter falls back
to a quoted style. -/
theorem c6_counterexample :
    pyMultiline "a \nb" = true ∧ emittedBlock "a \nb" = false := by decide

/-- C7, counterexample: `str_presenter` does NOT strip trailing
whitespace from lines: the text handed to the emitter for `"a \nb"`
still is `"a \nb"`, with a space immediately before the newline. -/
theorem c7_counterexample :
    (str_presenter "a \nb").1 = "a \nb" ∧
    hasSpaceBreak ((str_presenter "a \nb").1).data = true := by decide

theorem mem_of_getLast?_eq {l : List Char} {x : Char}
    (h : l.getLast? = some x) : x ∈ l := by
  have hx : x ∈ l.getLast? := Option.mem_def.mpr h
  obtain ⟨hne, hx'⟩ := List.mem_getLast?_eq_getLast hx
  rw [hx']
  exact List.getLast_mem hne

theorem splitlinesAux_cons_ne_cr {c : Char} (rest acc : List Char)
    (h : c ≠ '\r') :
    splitlinesAux (c :: rest) acc =
      if isPyBoundary c then acc :: splitlinesAux rest []
      else splitlinesAux rest (acc ++ [c]) := by
  cases rest with
  | nil => simp [splitlinesAux, h]
  | cons d rest' => simp [splitlinesAux, h]

/-- A Python line boundary that is not special for the YAML emitter is a
YAML break character. -/
theorem boundary_not_special_break {c : Char}
    (hb : isPyBoundary c = true) (hs : isSpecialChar c = false) :
    isYamlBreak c = true := by
  unfold isPyBoundary at hb
  unfold isSpecialChar at hs
  unfold isYamlBreak
  simp only [Bool.or_eq_true, decide_eq_true_eq] at hb ⊢
  rcases hb with ((((((((h | h) | h) | h) | h) | h) | h) | h) | h) | h <;>
    simp [h] at hs ⊢

/-- Prepending text preserves an existing space-before-break. -/
theorem hasSpaceBreak_cons {t : List Char} (x : Char)
    (h : hasSpaceBreak t = true) : hasSpaceBreak (x :: t) = true := by
  cases t with
  | nil => simp [hasSpaceBreak] at h
  | cons d rest => simp [hasSpaceBreak, h]

theorem hasSpaceBreak_append {a b : List Char}
    (h : hasSpaceBreak b = true) : hasSpaceBreak (a ++ b) = true := by
  induction a with
  | nil => simpa using h
  | cons x a ih => exact hasSpaceBreak_cons x ih

/-- A partial line ending in a space followed by a break character is a
space-before-break. -/
theorem hasSpaceBreak_of_last_space {a : List Char} {c : Char}
    (r : List Char) (hlast : a.getLast? = some ' ')
    (hc : isYamlBreak c = true) : hasSpaceBreak (a ++ c :: r) = true := by
  induction a with
  | nil => simp at hlast
  | cons x a ih =>
    cases a with
    | nil =>
      simp only [List.getLast?_singleton, Option.some.injEq] at hlast
      subst hlast
      simp [hasSpaceBreak, hc]
    | cons y a' =>
      rw [List.getLast?_cons_cons] at hlast
      have ht := ih hlast
      cases hys : ((y :: a') ++ c :: r) with
      | nil => simp at hys
      | cons d rest =>
        rw [List.cons_append, hys, hasSpaceBreak, ← hys, ht]
        simp

/-- Lines produced by `splitlines` contain no boundary characters. -/
theorem splitlinesAux_no_boundary (cs acc : List Char) :
    (∀ c ∈ acc, isPyBoundary c = false) →
    ∀ l ∈ splitlinesAux cs acc, ∀ c ∈ l, isPyBoundary c = false := by
  induction cs, acc using splitlinesAux.induct with
  | case1 acc hemp =>
    intro hacc l hl
    simp [splitlinesAux, hemp] at hl
  | case2 acc hemp =>
    intro hacc l hl
    simp only [splitlinesAux, if_neg hemp, List.mem_singleton] at hl
    subst hl
    exact hacc
  | case3 rest acc ih =>
    intro hacc l hl
    simp only [splitlinesAux, List.mem_cons] at hl
    rcases hl with hl | hl
    · subst hl; exact hacc
    · exact ih (by simp) l hl
  | case4 rest acc hne ih =>
    intro hacc l hl
    simp only [splitlinesAux, List.mem_cons] at hl
    rcases hl with hl | hl
    · subst hl; exact hacc
    · exact ih (by simp) l hl
  | case5 c rest acc hne1 hne2 hb ih =>
    intro hacc l hl
    rw [splitlinesAux_cons_ne_cr rest acc (fun h => hne2 h), if_pos hb] at hl
    rcases List.mem_cons.mp hl with hl | hl
    · subst hl; exact hacc
    · exact ih (by simp) l hl
  | case6 c rest acc hne1 hne2 hb ih =>
    intro hacc l hl
    rw [splitlinesAux_cons_ne_cr rest acc (fun h => hne2 h),
      if_neg hb] at hl
    refine ih ?_ l hl
    intro x hx
    rcases List.mem_append.mp hx with hx | hx
    · exact hacc x hx
    · rw [List.mem_singleton.mp hx]
      exact Bool.not_eq_true _ ▸ (Bool.of_not_eq_true hb)

/-- When the whole scalar has no special character, no space-before-break
and no trailing space, every `splitlines` line ends in neither a space
nor a tab. -/
theorem splitlinesAux_clean_end (cs acc : List Char) :
    (acc ++ cs).all (fun c => !isSpecialChar c) = true →
    hasSpaceBreak (acc ++ cs) = false →
    (acc ++ cs).getLast? ≠ some ' ' →
    ∀ l ∈ splitlinesAux cs acc,
      l.getLast? ≠ some ' ' ∧ l.getLast? ≠ some '\t' := by
  induction cs, acc using splitlinesAux.induct with
  | case1 acc hemp =>
    intro hall hsb hlast l hl
    simp [splitlinesAux, hemp] at hl
  | case2 acc hemp =>
    intro hall hsb hlast l hl
    simp only [splitlinesAux, if_neg hemp, List.mem_singleton] at hl
    subst hl
    refine ⟨by simpa using hlast, ?_⟩
    intro htab
    have hmem := mem_of_getLast?_eq htab
    have h1 := List.all_eq_true.mp hall '\t' (by simp [hmem])
    exact absurd (by simpa using h1) (by decide : ¬isSpecialChar '\t' = false)
  | case3 rest acc ih =>
    intro hall hsb hlast l hl
    have h1 := List.all_eq_true.mp hall '\r' (by simp)
    exact absurd (by simpa using h1) (by decide : ¬isSpecialChar '\r' = false)
  | case4 rest acc hne ih =>
    intro hall hsb hlast l hl
    have h1 := List.all_eq_true.mp hall '\r' (by simp)
    exact absurd (by simpa using h1) (by decide : ¬isSpecialChar '\r' = false)
  | case5 c rest acc hne1 hne2 hb ih =>
    intro hall hsb hlast l hl
    have hcne : c ≠ '\r' := fun h => hne2 h
    have hcspec : isSpecialChar c = false := by
      have h1 := List.all_eq_true.mp hall c (by simp)
      simpa using h1
    rw [splitlinesAux_cons_ne_cr rest acc hcne, if_pos hb] at hl
    rcases List.mem_cons.mp hl with hl | hl
    · subst hl
      constructor
      · intro hsp
        have hbreak : isYamlBreak c = true :=
          boundary_not_special_break hb hcspec
        have h2 := hasSpaceBreak_of_last_space rest hsp hbreak
        rw [h2] at hsb
        exact absurd hsb (by decide)
      · intro htab
        have hmem := mem_of_getLast?_eq htab
        have h1 := List.all_eq_true.mp hall '\t' (by simp [hmem])
        exact absurd (by simpa using h1) (by decide : ¬isSpecialChar '\t' = false)
    · refine ih ?_ ?_ ?_ l hl
      · simp only [List.nil_append]
        refine List.all_eq_true.mpr ?_
        intro x hx
        exact List.all_eq_true.mp hall x (by simp [hx])
      · simp only [List.nil_append]
        cases hrest : hasSpaceBreak rest
        · rfl
        · have h3 : hasSpaceBreak ((acc ++ [c]) ++ rest) = true :=
            hasSpaceBreak_append hrest
          rw [List.append_assoc, List.singleton_append] at h3
          rw [h3] at hsb
          exact absurd hsb (by decide)
      · simp only [List.nil_append]
        cases rest with
        | nil => simp
        | cons d rest' =>
          intro hlastr
          apply hlast
          rw [List.getLast?_append_cons, List.getLast?_cons_cons]
          exact hlastr
  | case6 c rest acc hne1 hne2 hb ih =>
    intro hall hsb hlast l hl
    have hcne : c ≠ '\r' := fun h => hne2 h
    rw [splitlinesAux_cons_ne_cr rest acc hcne, if_neg hb] at hl
    refine ih ?_ ?_ ?_ l hl
    · rw [List.append_assoc, List.singleton_append]
      exact hall
    · rw [List.append_assoc, List.singleton_append]
      exact hsb
    · rw [List.append_assoc, List.singleton_append]
      exact hlast

/-- A printable-ASCII-or-newline character is not special for the
emitter's analysis. -/
theorem printable_or_nl_not_special (c : Char)
    (h : (decide (c.toNat = 0xa) ||
      (decide (0x20 ≤ c.toNat) && decide (c.toNat ≤ 0x7e))) = true) :
    isSpecialChar c = false := by
  unfold isSpecialChar
  simp only [Bool.or_eq_true, Bool.and_eq_true, decide_eq_true_eq] at h
  simp only [Bool.not_eq_false', Bool.or_eq_true, Bool.and_eq_true,
    decide_eq_true_eq]
  exact Or.inl h

/-- C6 (amended): single-line text is never emitted as a block scalar;
multiline text is emitted as a block-literal scalar exactly when, after
carriage-return removal, PyYAML's analysis allows block style (non-empty,
no special character, no trailing space, no space-before-break) — in
particular every multiline text of printable ASCII and newlines with no
space before a newline and no trailing space gets block style, while
e.g. a line ending in a space forces a quoted fallback. -/
theorem c6_block_literal (s : String) :
    (pyMultiline s = false → emittedBlock s = false) ∧
    (pyMultiline s = true →
      (emittedBlock s = true ↔ allowBlock (removeCR s) = true)) ∧
    (pyMultiline s = true →
      s.data.all (fun c => decide (c.toNat = 0xa) ||
        (decide (0x20 ≤ c.toNat) && decide (c.toNat ≤ 0x7e))) = true →
      hasSpaceBreak s.data = false →
      s.data.getLast? ≠ some ' ' →
      emittedBlock s = true) := by
  refine ⟨?_, ?_, ?_⟩
  · intro hm
    simp [emittedBlock, str_presenter, hm]
  · intro hm
    simp [emittedBlock, str_presenter, hm]
  · intro hm hall hsb hlast
    have hnoCR : ∀ c ∈ s.data, (c != '\r') = true := by
      intro c hc
      have h1 := List.all_eq_true.mp hall c hc
      simp only [Bool.or_eq_true, Bool.and_eq_true, decide_eq_true_eq] at h1
      simp only [bne_iff_ne, ne_eq]
      intro heq
      subst heq
      simp at h1
    have hid : removeCR s = s := by
      unfold removeCR
      rw [List.filter_eq_self.mpr hnoCR]
    have hnonempty : s.data ≠ [] := by
      intro hempty
      unfold pyMultiline pySplitlines at hm
      rw [hempty] at hm
      simp [splitlinesAux] at hm
    have hblock : allowBlock s = true := by
      unfold allowBlock
      simp only [Bool.and_eq_true]
      refine ⟨⟨⟨?_, ?_⟩, ?_⟩, ?_⟩
      · simp only [Bool.not_eq_true', beq_eq_false_iff_ne, ne_eq]
        intro heq
        exact hnonempty (congrArg String.data heq)
      · refine List.all_eq_true.mpr ?_
        intro c hc
        have hns := printable_or_nl_not_special c (List.all_eq_true.mp hall c hc)
        simp [hns]
      · simp only [Bool.not_eq_true', beq_eq_false_iff_ne, ne_eq]
        exact hlast
      · simp [hsb]
    unfold emittedBlock str_presenter
    rw [if_pos hm]
    simp only [Bool.true_and]
    rw [hid]
    exact hblock

/-- C6, witness: `"line1\nline2"` is multiline and is emitted as a
block-literal scalar. -/
theorem c6_witness :
    pyMultiline "line1\nline2" = true ∧ emittedBlock "line1\nline2" = true :=
  ⟨by decide,
   (c6_block_literal "line1\nline2").2.2 (by decide) (by decide) (by decide)
     (by decide)⟩

/-- C7 (amended): before emitting multiline text, `str_presenter` removes
every `'\r'` but does NOT strip trailing whitespace from lines; still,
every scalar actually emitted in block style has no line ending in a
space or tab and no `'\r'`, because text violating this never receives
block style (it falls back to a quoted style). -/
theorem c7_normalized_block_lines (s : String) (hm : pyMultiline s = true) :
    (∀ c ∈ ((str_presenter s).1).data, c ≠ '\r') ∧
    (emittedBlock s = true →
      ∀ l ∈ pySplitlines ((str_presenter s).1),
        l.data.getLast? ≠ some ' ' ∧ l.data.getLast? ≠ some '\t' ∧
          '\r' ∉ l.data) := by
  have hpres : (str_presenter s).1 = removeCR s := by
    simp [str_presenter, hm]
  constructor
  · intro c hc
    rw [hpres] at hc
    unfold removeCR at hc
    simp only [List.mem_filter, bne_iff_ne, ne_eq] at hc
    exact hc.2
  · intro hblock l hl
    have hallow : allowBlock (removeCR s) = true := by
      unfold emittedBlock at hblock
      rw [hpres] at hblock
      simp only [Bool.and_eq_true] at hblock
      exact hblock.2
    unfold allowBlock at hallow
    simp only [Bool.and_eq_true] at hallow
    obtain ⟨⟨⟨hne0, hall⟩, hlast0⟩, hsb0⟩ := hallow
    have hsb : hasSpaceBreak (removeCR s).data = false := by
      simpa using hsb0
    have hlast : (removeCR s).data.getLast? ≠ some ' ' := by
      simpa using hlast0
    rw [hpres] at hl
    unfold pySplitlines at hl
    obtain ⟨l', hl', rfl⟩ := List.mem_map.mp hl
    have hclean := splitlinesAux_clean_end (removeCR s).data []
      (by simpa using hall) (by simpa using hsb) (by simpa using hlast)
      l' hl'
    have hnob := splitlinesAux_no_boundary (removeCR s).data []
      (by simp) l' hl' '\r'
    refine ⟨hclean.1, hclean.2, ?_⟩
    intro hcr
    have hfb := hnob hcr
    exact absurd hfb (by decide)

/-- C7, witness: for `"a\r\nb"` the presenter output is carriage-return
free and the emitted block scalar's lines end cleanly. -/
theorem c7_witness :
    pyMultiline "a\r\nb" = true ∧ emittedBlock "a\r\nb" = true ∧
    (∀ c ∈ ((str_presenter "a\r\nb").1).data, c ≠ '\r') :=
  ⟨by decide, by decide, (c7_normalized_block_lines "a\r\nb" (by decide)).1⟩

/-! ## Structural converter (`xml2yaml` / `yaml2xml`, source lines 61-98)

`xml2yaml` is `yaml.dump(xmltodict.parse(in_str), ...)` with the ordered
dict representer and `str_presenter`; `yaml2xml` is
`xmltodict.unparse(ordered_load(in_str), pretty=True)`.

We embed the pipeline at tree level.  `XTree` is an XML element as the
parser delivers it (tag, attributes in document order, child elements in
document order, character data).  `YVal` is a YAML value.

* `valOf` models `xmltodict.parse`: an element with no attributes and no
  children becomes `null` (no text) or a plain string (text only);
  otherwise an ordered mapping with `@`-prefixed attribute keys, child
  entries folded in document order — a repeated child tag turns its entry
  into a growing sequence (`push_data` in xmltodict's `DictSAXHandler`) —
  and a final `#text` entry for character data.
* `ynorm` models the net effect of `yaml.dump` followed by
  `ordered_load`: the YAML text layer reproduces the same tree, except
  that every dumped string went through `str_presenter`, which rewrites
  multiline strings by dropping `'\r'`.  (Scalars that PyYAML would
  re-type, e.g. `"123"`, are tagged as strings by the representer and
  round-trip as strings; NEL/LS/PS characters, which YAML folds into
  `'\n'`, are excluded by the well-formedness predicate below.)
* `treeOf` models `xmltodict.unparse` (`_emit`): `@`-keys become
  attributes, `#text` becomes character data, every other entry becomes
  one child element — or one child per item when its value is a
  sequence.  A sequence directly inside a sequence cannot arise from
  `parse` output and is modelled as an empty element.
-/

/-- A YAML value as handled by the converter. -/
inductive YVal where
  | null
  | str (s : String)
  | seq (items : List YVal)
  | map (entries : List (String × YVal))

/-- An XML element tree as delivered by the XML parser. -/
inductive XTree where
  | elem (tag : String) (attrs : List (String × String))
      (children : List XTree) (text : Option String)

/-- Tag of an element. -/
def tagOf : XTree → String
  | .elem t _ _ _ => t

/-- Child tag list of an element. -/
def childTags : XTree → List String
  | .elem _ _ cs _ => cs.map tagOf

/-- `push_data` of xmltodict's `DictSAXHandler`: add a value under a key;
a repeated key turns the entry into a sequence (or extends it). -/
def pushData : List (String × YVal) → String → YVal → List (String × YVal)
  | [], k, v => [(k, v)]
  | p :: rest, k, v =>
    if p.1 = k then
      match p.2 with
      | .seq l => (p.1, .seq (l ++ [v])) :: rest
      | w => (p.1, .seq [w, v]) :: rest
    else p :: pushData rest k v

/-- The `#text` entry for an element's character data. -/
def textEntries : Option String → List (String × YVal)
  | none => []
  | some t => [("#text", .str t)]

mutual
/-- `xmltodict.parse` on one element (see section comment). -/
def valOf : XTree → YVal
  | .elem _ attrs cs text =>
    match attrs, cs, text with
    | [], [], none => .null
    | [], [], some t => .str t
    | _, _, _ =>
      .map ((attrs.map (fun a => ("@" ++ a.1, YVal.str a.2))) ++
        foldChildren [] cs ++ textEntries text)

/-- Fold the children into the ordered mapping, in document order. -/
def foldChildren : List (String × YVal) → List XTree → List (String × YVal)
  | acc, [] => acc
  | acc, c :: cs => foldChildren (pushData acc (tagOf c) (valOf c)) cs
end

/-- Attribute-key test of `unparse`: `key.startswith('@')`, returning
the attribute name. -/
def splitAttrKey (k : String) : Option String :=
  match k.data with
  | '@' :: rest => some (String.mk rest)
  | _ => none

/-- String content of a scalar value (attribute values and `#text` are
always strings in `parse` output; other values cannot arise there). -/
def strOf : YVal → String
  | .str s => s
  | _ => ""

/-- Attributes recovered by `unparse` from the `@`-prefixed entries. -/
def attrsFromEntries (entries : List (String × YVal)) :
    List (String × String) :=
  entries.filterMap (fun p => (splitAttrKey p.1).map (fun n => (n, strOf p.2)))

/-- Character data recovered by `unparse` from the `#text` entry (the
last one wins, as repeated assignment would in `_emit`). -/
def textFromEntries (entries : List (String × YVal)) : Option String :=
  (entries.filter (fun p => p.1 == "#text")).getLast?.map (fun p => strOf p.2)

mutual
/-- `xmltodict.unparse` (`_emit`) on one key/value. -/
def treeOf (tag : String) : YVal → XTree
  | .null => .elem tag [] [] none
  | .str s => .elem tag [] [] (some s)
  | .seq _ => .elem tag [] [] none
  | .map entries =>
    .elem tag (attrsFromEntries entries) (unfoldChildren entries)
      (textFromEntries entries)

/-- Children recovered by `unparse`: every non-attribute, non-`#text`
entry yields one element, or one element per item for a sequence. -/
def unfoldChildren : List (String × YVal) → List XTree
  | [] => []
  | (k, v) :: rest =>
    if (splitAttrKey k).isSome || k == "#text" then unfoldChildren rest
    else
      (match v with
       | .seq l => seqTrees k l
       | w => [treeOf k w]) ++ unfoldChildren rest

/-- Sibling elements for a sequence entry, in order. -/
def seqTrees (k : String) : List YVal → List XTree
  | [] => []
  | v :: vs => treeOf k v :: seqTrees k vs
end

mutual
/-- The YAML text layer: every string dumped by `yaml.dump` goes through
`str_presenter`, and `ordered_load` reads the same tree back. -/
def ynorm : YVal → YVal
  | .null => .null
  | .str s => .str (str_presenter s).1
  | .seq l => .seq (ynormList l)
  | .map es => .map (ynormPairs es)

def ynormList : List YVal → List YVal
  | [] => []
  | v :: vs => ynorm v :: ynormList vs

def ynormPairs : List (String × YVal) → List (String × YVal)
  | [] => []
  | (k, v) :: rest => ((str_presenter k).1, ynorm v) :: ynormPairs rest
end

/-- `xml2yaml` followed by `yaml2xml`, at tree level: parse the XML into
the ordered-mapping representation, push it through the YAML text layer,
and unparse it back to an element tree. -/
def xml2yaml_then_yaml2xml (root : XTree) : XTree :=
  treeOf (str_presenter (tagOf root)).1 (ynorm (valOf root))

/-- C1, counterexample: the round trip does NOT preserve element order
for interleaved repeated sibling tags.  For `<r><a/><b/><a/></r>`,
xmltodict folds both `<a/>` under one key, so unparsing yields sibling
order `a, a, b` instead of the original `a, b, a`. -/
theorem c1_counterexample :
    childTags (xml2yaml_then_yaml2xml
        (XTree.elem "r" []
          [XTree.elem "a" [] [] none, XTree.elem "b" [] [] none,
           XTree.elem "a" [] [] none] none)) ≠
      childTags
        (XTree.elem "r" []
          [XTree.elem "a" [] [] none, XTree.elem "b" [] [] none,
           XTree.elem "a" [] [] none] none) := by decide

/-- C2, counterexample: reconverting the YAML for `<a/><b/><a/>` does NOT
restore the sibling order `a, b, a`; the two `a` elements are regrouped
at the first occurrence, giving `a, a, b`. -/
theorem c2_counterexample :
    childTags (xml2yaml_then_yaml2xml
        (XTree.elem "r" []
          [XTree.elem "a" [] [] none, XTree.elem "b" [] [] none,
           XTree.elem "a" [] [] none] none)) ≠ ["a", "b", "a"] := by decide

/-- C2 (amended): for input XML `<r><a/><b/><a/></r>`, the YAML mapping
binds the repeated tag `a` to a sequence of exactly its two occurrences
in original order (and `b` to its single value); reconverting yields the
three siblings regrouped as `a, a, b` — repeated tags are emitted
contiguously at the position of their first occurrence, so the original
interleaved order `a, b, a` is not restored. -/
theorem c2_repeated_tag_sequence :
    valOf (XTree.elem "r" []
        [XTree.elem "a" [] [] none, XTree.elem "b" [] [] none,
         XTree.elem "a" [] [] none] none) =
      YVal.map [("a", YVal.seq [YVal.null, YVal.null]), ("b", YVal.null)] ∧
    xml2yaml_then_yaml2xml
        (XTree.elem "r" []
          [XTree.elem "a" [] [] none, XTree.elem "b" [] [] none,
           XTree.elem "a" [] [] none] none) =
      XTree.elem "r" []
        [XTree.elem "a" [] [] none, XTree.elem "a" [] [] none,
         XTree.elem "b" [] [] none] none :=
  ⟨rfl, rfl⟩

/-- Well-formed XML name for the converter: not an attribute-style key,
not the reserved `#text` key, and free of line-boundary characters (XML
names cannot contain them). -/
def wfName (s : String) : Bool :=
  (splitAttrKey s).isNone && !(s == "#text") &&
  s.data.all (fun c => !isPyBoundary c)

/-- Well-formed scalar value for the round trip: free of the YAML break
characters NEL/LS/PS, which YAML itself would fold into `'\n'`. -/
def wfValueStr (s : String) : Bool :=
  s.data.all (fun c =>
    !(decide (c.toNat = 0x85) || decide (c.toNat = 0x2028) ||
      decide (c.toNat = 0x2029)))

/-- Every group of equal entries is contiguous (repeated sibling tags
appear in one run). -/
def grouped : List String → Bool
  | [] => true
  | [_] => true
  | x :: y :: xs => (x = y || !(decide (x ∈ y :: xs))) && grouped (y :: xs)

/-- All entries distinct. -/
def distinctKeys : List String → Bool
  | [] => true
  | k :: ks => !(decide (k ∈ ks)) && distinctKeys ks

mutual
/-- Well-formed tree for the amended round-trip law: well-formed tag,
well-formed distinct attribute names, break-free attribute values and
text, and same-tag siblings contiguous, recursively. -/
def wfTree : XTree → Bool
  | .elem tag attrs cs text =>
    wfName tag && attrs.all (fun a => wfName a.1 && wfValueStr a.2) &&
    distinctKeys (attrs.map (·.1)) && grouped (cs.map tagOf) &&
    (match text with | none => true | some t => wfValueStr t) &&
    wfForest cs

def wfForest : List XTree → Bool
  | [] => true
  | c :: cs => wfTree c && wfForest cs
end

mutual
/-- The normalization the round trip applies to a well-formed tree:
attribute values and text go through `str_presenter`'s rewriting
(carriage returns dropped from multiline values); structure, tags and
attribute names are untouched. -/
def normTree : XTree → XTree
  | .elem tag attrs cs text =>
    .elem tag (attrs.map (fun a => (a.1, (str_presenter a.2).1)))
      (normForest cs) (text.map (fun t => (str_presenter t).1))

def normForest : List XTree → List XTree
  | [] => []
  | c :: cs => normTree c :: normForest cs
end

/-- Structural induction over element trees. -/
theorem XTree.indOn (P : XTree → Prop)
    (h : ∀ tag attrs cs text, (∀ c ∈ cs, P c) →
      P (.elem tag attrs cs text)) : ∀ t, P t
  | .elem tag attrs cs text =>
    h tag attrs cs text (fun c hc => XTree.indOn P h c)
termination_by t => sizeOf t
decreasing_by
  have hs := List.sizeOf_lt_of_mem hc
  simp only [XTree.elem.sizeOf_spec]
  omega

theorem wfForest_mem {cs : List XTree} (h : wfForest cs = true) :
    ∀ c ∈ cs, wfTree c = true := by
  induction cs with
  | nil => intro c hc; simp at hc
  | cons d cs ih =>
    intro c hc
    rw [wfForest, Bool.and_eq_true] at h
    rcases List.mem_cons.mp hc with hc | hc
    · subst hc; exact h.1
    · exact ih h.2 c hc

theorem normForest_eq_map (cs : List XTree) :
    normForest cs = cs.map normTree := by
  induction cs with
  | nil => rfl
  | cons c cs ih => simp [normForest, ih]

theorem ynormList_eq_map (l : List YVal) : ynormList l = l.map ynorm := by
  induction l with
  | nil => rfl
  | cons v vs ih => simp [ynormList, ih]

theorem ynormPairs_append (a b : List (String × YVal)) :
    ynormPairs (a ++ b) = ynormPairs a ++ ynormPairs b := by
  induction a with
  | nil => rfl
  | cons p rest ih =>
    obtain ⟨k, v⟩ := p
    simp [ynormPairs, ih]

theorem seqTrees_eq_map (k : String) (l : List YVal) :
    seqTrees k l = l.map (treeOf k) := by
  induction l with
  | nil => rfl
  | cons v vs ih => simp [seqTrees, ih]

theorem unfoldChildren_append (a b : List (String × YVal)) :
    unfoldChildren (a ++ b) = unfoldChildren a ++ unfoldChildren b := by
  induction a with
  | nil => rfl
  | cons p rest ih =>
    obtain ⟨k, v⟩ := p
    cases v <;>
      by_cases hk : ((splitAttrKey k).isSome || k == "#text") = true <;>
      simp [unfoldChildren, hk, ih, List.append_assoc]

/-- `valOf` never produces a top-level sequence. -/
def isSeqB : YVal → Bool
  | .seq _ => true
  | _ => false

theorem valOf_not_seq (t : XTree) : isSeqB (valOf t) = false := by
  obtain ⟨tag, attrs, cs, text⟩ := t
  rcases attrs with _ | ⟨a, attrs⟩ <;> rcases cs with _ | ⟨c, cs⟩ <;>
    rcases text with _ | t <;> rfl

theorem ynorm_isSeqB (v : YVal) : isSeqB (ynorm v) = isSeqB v := by
  cases v <;> rfl

/-- How `push_data` grows the value under a repeated key. -/
def combine (w v : YVal) : YVal :=
  match w with
  | .seq l => .seq (l ++ [v])
  | w => .seq [w, v]

/-- Value accumulated for one run of a repeated key. -/
def foldCombine (w : YVal) (vs : List YVal) : YVal := vs.foldl combine w

/-- Flatten a list of key runs (key, first value, later values) back into
the entry list they came from. -/
def blocksFlatten : List (String × YVal × List YVal) → List (String × YVal)
  | [] => []
  | (k, v, vs) :: bs => (k, v) :: vs.map (fun w => (k, w)) ++ blocksFlatten bs

/-- Inverse reading of a folded mapping: a sequence entry stands for one
sibling per item, any other entry for a single sibling. -/
def expandEntries : List (String × YVal) → List (String × YVal)
  | [] => []
  | (k, v) :: rest =>
    (match v with
     | .seq l => l.map (fun w => (k, w))
     | w => [(k, w)]) ++ expandEntries rest

theorem pushData_not_mem {acc : List (String × YVal)} {k : String} (v : YVal)
    (h : k ∉ acc.map (·.1)) : pushData acc k v = acc ++ [(k, v)] := by
  induction acc with
  | nil => rfl
  | cons p rest ih =>
    simp only [List.map_cons, List.mem_cons] at h
    push_neg at h
    have hp : p.1 ≠ k := fun he => h.1 he.symm
    simp only [pushData, if_neg hp, List.cons_append,
      List.cons.injEq, true_and]
    exact ih h.2

theorem pushData_last {acc : List (String × YVal)} {k : String} (w v : YVal)
    (h : k ∉ acc.map (·.1)) :
    pushData (acc ++ [(k, w)]) k v = acc ++ [(k, combine w v)] := by
  induction acc with
  | nil =>
    simp only [List.nil_append, pushData, if_pos rfl]
    cases w <;> rfl
  | cons p rest ih =>
    simp only [List.map_cons, List.mem_cons] at h
    push_neg at h
    have hp : p.1 ≠ k := fun he => h.1 he.symm
    simp only [List.cons_append, pushData, if_neg hp,
      List.cons.injEq, true_and]
    exact ih h.2

theorem foldl_push_run {acc : List (String × YVal)} {k : String} (w : YVal)
    (vs : List YVal) (h : k ∉ acc.map (·.1)) :
    List.foldl (fun a p => pushData a p.1 p.2) (acc ++ [(k, w)])
        (vs.map (fun v => (k, v))) =
      acc ++ [(k, foldCombine w vs)] := by
  induction vs generalizing w with
  | nil => rfl
  | cons v vs ih =>
    simp only [List.map_cons, List.foldl_cons]
    rw [pushData_last w v h]
    exact ih (combine w v)

theorem foldCombine_seq (l : List YVal) (vs : List YVal) :
    foldCombine (.seq l) vs = .seq (l ++ vs) := by
  induction vs generalizing l with
  | nil => simp [foldCombine]
  | cons v vs ih =>
    show foldCombine (combine (.seq l) v) vs = _
    rw [show combine (.seq l) v = .seq (l ++ [v]) from rfl, ih]
    simp

theorem foldCombine_not_seq {v : YVal} (vs : List YVal)
    (h : isSeqB v = false) :
    foldCombine v vs =
      match vs with
      | [] => v
      | _ => .seq (v :: vs) := by
  cases vs with
  | nil => rfl
  | cons w ws =>
    have hcomb : combine v w = .seq [v, w] := by
      cases v with
      | null => rfl
      | str s => rfl
      | seq l => simp [isSeqB] at h
      | map es => rfl
    show foldCombine (combine v w) ws = _
    rw [hcomb, foldCombine_seq]
    rfl

theorem block_head_mem (blocks : List (String × YVal × List YVal))
    (b : String × YVal × List YVal) (hb : b ∈ blocks) :
    (b.1, b.2.1) ∈ blocksFlatten blocks := by
  induction blocks with
  | nil => simp at hb
  | cons b' bs ih =>
    obtain ⟨k, v, vs⟩ := b'
    rcases List.mem_cons.mp hb with hb | hb
    · subst hb
      simp [blocksFlatten]
    · exact List.mem_cons_of_mem _ (List.mem_append_right _ (ih hb))

theorem block_key_mem (blocks : List (String × YVal × List YVal))
    (b : String × YVal × List YVal) (hb : b ∈ blocks) :
    b.1 ∈ (blocksFlatten blocks).map (·.1) :=
  List.mem_map.mpr ⟨(b.1, b.2.1), block_head_mem blocks b hb, rfl⟩

/-- Folding a run-structured entry list produces one entry per run, in
run order, accumulating each run's values. -/
theorem foldl_push_blocks (blocks : List (String × YVal × List YVal)) :
    ∀ acc : List (String × YVal),
    (∀ b ∈ blocks, b.1 ∉ acc.map (·.1)) →
    distinctKeys (blocks.map (·.1)) = true →
    List.foldl (fun a p => pushData a p.1 p.2) acc (blocksFlatten blocks) =
      acc ++ blocks.map (fun b => (b.1, foldCombine b.2.1 b.2.2)) := by
  induction blocks with
  | nil => intro acc _ _; simp [blocksFlatten]
  | cons b bs ih =>
    intro acc hdisj hdist
    obtain ⟨k, v, vs⟩ := b
    simp only [List.map_cons, distinctKeys, Bool.and_eq_true,
      Bool.not_eq_true', decide_eq_false_iff_not] at hdist
    have hknotacc : k ∉ acc.map (·.1) := hdisj (k, v, vs) (List.mem_cons_self _ _)
    simp only [blocksFlatten]
    rw [show ((k, v) :: List.map (fun w => (k, w)) vs ++ blocksFlatten bs) =
        (((k, v) :: List.map (fun w => (k, w)) vs) ++ blocksFlatten bs) from
        rfl,
      List.foldl_append]
    have hstep : List.foldl (fun a p => pushData a p.1 p.2) acc
        ((k, v) :: List.map (fun w => (k, w)) vs) =
        List.foldl (fun a p => pushData a p.1 p.2) (pushData acc k v)
          (List.map (fun w => (k, w)) vs) := rfl
    rw [hstep, pushData_not_mem v hknotacc, foldl_push_run v vs hknotacc]
    rw [ih (acc ++ [(k, foldCombine v vs)]) ?_ hdist.2]
    · simp [List.append_assoc]
    · intro b hb
      simp only [List.map_append, List.map_cons, List.map_nil]
      intro hmem
      rcases List.mem_append.mp hmem with hmem | hmem
      · exact hdisj b (List.mem_cons_of_mem _ hb) hmem
      · have hbk : b.1 = k := by simpa using hmem
        exact hdist.1 (hbk ▸ List.mem_map.mpr ⟨b, hb, rfl⟩)

/-- Expanding the folded entries recovers exactly the original runs. -/
theorem expand_blocks (blocks : List (String × YVal × List YVal))
    (h : ∀ b ∈ blocks, isSeqB b.2.1 = false) :
    expandEntries (blocks.map (fun b => (b.1, foldCombine b.2.1 b.2.2))) =
      blocksFlatten blocks := by
  induction blocks with
  | nil => rfl
  | cons b bs ih =>
    obtain ⟨k, v, vs⟩ := b
    have hv : isSeqB v = false := h (k, v, vs) (List.mem_cons_self _ _)
    have hrest := ih (fun b hb => h b (List.mem_cons_of_mem _ hb))
    simp only [List.map_cons, expandEntries, blocksFlatten]
    rw [foldCombine_not_seq vs hv]
    cases vs with
    | nil =>
      cases v with
      | null => simp [hrest]
      | str s => simp [hrest]
      | seq l => simp [isSeqB] at hv
      | map es => simp [hrest]
    | cons w ws =>
      simp [hrest]

/-- An entry list whose keys are grouped (equal keys contiguous)
decomposes into runs with pairwise-distinct keys. -/
theorem grouped_blocks (ps : List (String × YVal)) :
    grouped (ps.map (·.1)) = true →
    ∃ blocks : List (String × YVal × List YVal),
      blocksFlatten blocks = ps ∧
      distinctKeys (blocks.map (·.1)) = true := by
  induction ps with
  | nil => intro _; exact ⟨[], rfl, rfl⟩
  | cons p rest ih =>
    intro hg
    obtain ⟨k, v⟩ := p
    cases rest with
    | nil =>
      refine ⟨[(k, v, [])], ?_, ?_⟩
      · simp [blocksFlatten]
      · simp [distinctKeys]
    | cons p₂ rest₂ =>
      obtain ⟨k₂, v₂⟩ := p₂
      have hg' : (k = k₂ ∨ k ∉ k₂ :: rest₂.map (·.1)) ∧
          grouped (k₂ :: rest₂.map (·.1)) = true := by
        simp only [List.map_cons, grouped, Bool.and_eq_true, Bool.or_eq_true,
          decide_eq_true_eq, Bool.not_eq_true', decide_eq_false_iff_not] at hg
        exact ⟨hg.1, hg.2⟩
      obtain ⟨blocks', hflat, hdist⟩ := ih (by simpa using hg'.2)
      rcases hg'.1 with heq | hnot
      · subst heq
        cases blocks' with
        | nil => simp [blocksFlatten] at hflat
        | cons b bs =>
          obtain ⟨k₁, v₁, vs₁⟩ := b
          have hparts : k₁ = k ∧ v₁ = v₂ ∧
              (List.map (fun w => (k₁, w)) vs₁ ++ blocksFlatten bs) = rest₂ := by
            simp only [blocksFlatten, List.cons_append, List.cons.injEq,
              Prod.mk.injEq] at hflat
            exact ⟨hflat.1.1, hflat.1.2, hflat.2⟩
          obtain ⟨hk₁, hv₁, hrest⟩ := hparts
          subst hk₁
          subst hv₁
          refine ⟨(k₁, v, v₁ :: vs₁) :: bs, ?_, ?_⟩
          · simp only [blocksFlatten, List.cons_append, List.map_cons]
            rw [hrest]
          · simpa using hdist
      · refine ⟨(k, v, []) :: blocks', ?_, ?_⟩
        · simp [blocksFlatten, hflat]
        · simp only [List.map_cons, distinctKeys, Bool.and_eq_true,
            Bool.not_eq_true', decide_eq_false_iff_not]
          refine ⟨?_, hdist⟩
          intro hkmem
          obtain ⟨b, hb, hbk⟩ := List.mem_map.mp hkmem
          have hmem := block_key_mem blocks' b hb
          rw [hflat, hbk] at hmem
          exact hnot (by simpa using hmem)

/-- `splitlines` of boundary-free text is at most one line. -/
theorem splitlinesAux_no_boundary_input (cs : List Char) :
    ∀ acc, (∀ c ∈ cs, isPyBoundary c = false) →
    splitlinesAux cs acc =
      if (acc ++ cs).isEmpty then [] else [acc ++ cs] := by
  induction cs with
  | nil => intro acc _; simp [splitlinesAux]
  | cons c rest ih =>
    intro acc h
    have hc : isPyBoundary c = false := h c (List.mem_cons_self _ _)
    have hcr : c ≠ '\r' := by
      intro he
      rw [he] at hc
      exact absurd hc (by decide)
    rw [splitlinesAux_cons_ne_cr rest acc hcr, if_neg (by simp [hc]),
      ih (acc ++ [c]) (fun x hx => h x (List.mem_cons_of_mem _ hx))]
    simp

/-- Boundary-free strings are single-line, so `str_presenter` leaves
them unchanged. -/
theorem str_presenter_id {s : String}
    (h : ∀ c ∈ s.data, isPyBoundary c = false) :
    (str_presenter s).1 = s := by
  have hm : pyMultiline s = false := by
    unfold pyMultiline pySplitlines
    rw [splitlinesAux_no_boundary_input s.data [] h]
    rcases hd : s.data.isEmpty with _ | _ <;> simp_all
  simp [str_presenter, hm]

theorem wfName_presenter_id {s : String} (h : wfName s = true) :
    (str_presenter s).1 = s := by
  unfold wfName at h
  simp only [Bool.and_eq_true, List.all_eq_true, Bool.not_eq_true'] at h
  exact str_presenter_id h.2

theorem splitAttrKey_at (n : String) : splitAttrKey ("@" ++ n) = some n := by
  unfold splitAttrKey
  have hd : ("@" ++ n).data = '@' :: n.data := by
    simp [String.data_append]
  rw [hd]
  rfl

theorem at_key_presenter_id {n : String}
    (h : ∀ c ∈ n.data, isPyBoundary c = false) :
    (str_presenter ("@" ++ n)).1 = "@" ++ n := by
  refine str_presenter_id ?_
  intro c hc
  rw [String.data_append] at hc
  rcases List.mem_append.mp hc with hc | hc
  · have : c = '@' := by simpa using hc
    subst this
    decide
  · exact h c hc

theorem at_ne_text (n : String) : ("@" ++ n) ≠ "#text" := by
  intro h
  have hd := congrArg String.data h
  rw [String.data_append] at hd
  simpa using hd

/-- Keys after `push_data` come from the accumulator or are the pushed
key. -/
theorem pushData_key_mem {acc : List (String × YVal)} {k : String} {v : YVal} :
    ∀ p ∈ pushData acc k v, p.1 ∈ acc.map (·.1) ∨ p.1 = k := by
  induction acc with
  | nil =>
    intro p hp
    simp only [pushData, List.mem_singleton] at hp
    subst hp
    exact Or.inr rfl
  | cons q rest ih =>
    intro p hp
    simp only [pushData] at hp
    by_cases hq : q.1 = k
    · rw [if_pos hq] at hp
      rcases hw : q.2 with _ | _ | l | _ <;> rw [hw] at hp <;>
        rcases List.mem_cons.mp hp with hp | hp <;>
        first
          | (subst hp; exact Or.inl (by simp))
          | exact Or.inl (List.mem_cons_of_mem _ (List.mem_map.mpr
              ⟨p, hp, rfl⟩))
    · rw [if_neg hq] at hp
      rcases List.mem_cons.mp hp with hp | hp
      · subst hp
        exact Or.inl (by simp)
      · rcases ih p hp with hm | hm
        · exact Or.inl (List.mem_cons_of_mem _ hm)
        · exact Or.inr hm

/-- The YAML text layer commutes with `push_data` when all keys involved
are unchanged by `str_presenter`. -/
theorem ynormPairs_pushData (acc : List (String × YVal)) (k : String)
    (v : YVal) (hk : (str_presenter k).1 = k)
    (hacc : ∀ p ∈ acc, (str_presenter p.1).1 = p.1) :
    ynormPairs (pushData acc k v) = pushData (ynormPairs acc) k (ynorm v) := by
  induction acc with
  | nil => simp [pushData, ynormPairs, hk]
  | cons q rest ih =>
    obtain ⟨k', w⟩ := q
    have hk' : (str_presenter k').1 = k' :=
      hacc (k', w) (List.mem_cons_self _ _)
    have hrest : ∀ p ∈ rest, (str_presenter p.1).1 = p.1 :=
      fun p hp => hacc p (List.mem_cons_of_mem _ hp)
    by_cases he : k' = k
    · subst he
      cases w with
      | null => simp [pushData, ynormPairs, ynorm, hk', ynormList_eq_map]
      | str s => simp [pushData, ynormPairs, ynorm, hk', ynormList_eq_map]
      | seq l =>
        simp [pushData, ynormPairs, ynorm, hk', ynormList_eq_map]
      | map es => simp [pushData, ynormPairs, ynorm, hk', ynormList_eq_map]
    · simp only [pushData, if_neg he, ynormPairs, hk', ih hrest]

/-- The YAML text layer commutes with the child fold when all tags are
unchanged by `str_presenter`. -/
theorem ynormPairs_foldChildren (cs : List XTree) :
    ∀ acc, (∀ c ∈ cs, (str_presenter (tagOf c)).1 = tagOf c) →
    (∀ p ∈ acc, (str_presenter p.1).1 = p.1) →
    ynormPairs (foldChildren acc cs) =
      List.foldl (fun a p => pushData a p.1 p.2) (ynormPairs acc)
        (cs.map (fun c => (tagOf c, ynorm (valOf c)))) := by
  induction cs with
  | nil => intro acc _ _; rfl
  | cons c cs ih =>
    intro acc hcs hacc
    have hc : (str_presenter (tagOf c)).1 = tagOf c :=
      hcs c (List.mem_cons_self _ _)
    have hacc' : ∀ p ∈ pushData acc (tagOf c) (valOf c),
        (str_presenter p.1).1 = p.1 := by
      intro p hp
      rcases pushData_key_mem p hp with hm | hm
      · obtain ⟨q, hq, hq1⟩ := List.mem_map.mp hm
        rw [← hq1]
        exact hacc q hq
      · rw [hm]
        exact hc
    show ynormPairs (foldChildren (pushData acc (tagOf c) (valOf c)) cs) = _
    rw [ih _ (fun d hd => hcs d (List.mem_cons_of_mem _ hd)) hacc',
      ynormPairs_pushData acc (tagOf c) (valOf c) hc hacc]
    simp

/-- Entries whose keys are attribute keys or `#text` contribute no
children. -/
theorem unfoldChildren_skip (es : List (String × YVal))
    (h : ∀ p ∈ es, ((splitAttrKey p.1).isSome || p.1 == "#text") = true) :
    unfoldChildren es = [] := by
  induction es with
  | nil => rfl
  | cons p rest ih =>
    obtain ⟨k, v⟩ := p
    have hk := h (k, v) (List.mem_cons_self _ _)
    cases v <;>
      simp [unfoldChildren, hk, ih (fun q hq => h q (List.mem_cons_of_mem _ hq))]

/-- On key-clean entry lists, `unparse`'s child recovery is the expansion
of each entry into elements. -/
theorem unfoldChildren_expand (es : List (String × YVal))
    (h : ∀ p ∈ es, splitAttrKey p.1 = none ∧ p.1 ≠ "#text") :
    unfoldChildren es = (expandEntries es).map (fun p => treeOf p.1 p.2) := by
  induction es with
  | nil => rfl
  | cons p rest ih =>
    obtain ⟨k, v⟩ := p
    have hk := h (k, v) (List.mem_cons_self _ _)
    have hcond : ((splitAttrKey k).isSome || k == "#text") = false := by
      simp [hk.1, hk.2]
    have ihr := ih (fun q hq => h q (List.mem_cons_of_mem _ hq))
    cases v <;>
      simp [unfoldChildren, expandEntries, hcond, ihr, seqTrees_eq_map,
        List.map_map, Function.comp]

/-- Attribute extraction ignores key-clean entries. -/
theorem attrsFromEntries_none (es : List (String × YVal))
    (h : ∀ p ∈ es, splitAttrKey p.1 = none) :
    attrsFromEntries es = [] := by
  induction es with
  | nil => rfl
  | cons p rest ih =>
    have hp := h p (List.mem_cons_self _ _)
    simp only [attrsFromEntries, List.filterMap_cons, hp, Option.map_none]
    exact ih (fun q hq => h q (List.mem_cons_of_mem _ hq))

/-- Attribute extraction on the normalized attribute entries recovers the
attributes with normalized values. -/
theorem attrsFromEntries_attrs (attrs : List (String × String)) :
    attrsFromEntries (attrs.map
        (fun a => ("@" ++ a.1, YVal.str ((str_presenter a.2).1)))) =
      attrs.map (fun a => (a.1, (str_presenter a.2).1)) := by
  induction attrs with
  | nil => rfl
  | cons a rest ih =>
    simp only [attrsFromEntries] at ih ⊢
    simp [List.filterMap_cons, splitAttrKey_at, strOf] at ih ⊢
    exact ih

/-- Text extraction ignores non-`#text` entries. -/
theorem textFilter_none (es : List (String × YVal))
    (h : ∀ p ∈ es, p.1 ≠ "#text") :
    es.filter (fun p => p.1 == "#text") = [] := by
  induction es with
  | nil => rfl
  | cons p rest ih =>
    have hp := h p (List.mem_cons_self _ _)
    have hb : (p.1 == "#text") = false := beq_eq_false_iff_ne.mpr hp
    simp [List.filter_cons, hb,
      ih (fun q hq => h q (List.mem_cons_of_mem _ hq))]

theorem wfName_splitNone {s : String} (h : wfName s = true) :
    splitAttrKey s = none := by
  unfold wfName at h
  simp only [Bool.and_eq_true, Option.isNone_iff_eq_none] at h
  exact h.1.1

theorem wfName_ne_text {s : String} (h : wfName s = true) : s ≠ "#text" := by
  unfold wfName at h
  simp only [Bool.and_eq_true, Bool.not_eq_true', beq_eq_false_iff_ne] at h
  exact h.1.2

theorem wfName_no_boundary {s : String} (h : wfName s = true) :
    ∀ c ∈ s.data, isPyBoundary c = false := by
  unfold wfName at h
  simp only [Bool.and_eq_true, List.all_eq_true, Bool.not_eq_true'] at h
  exact h.2

theorem wfTree_tagName {c : XTree} (h : wfTree c = true) :
    wfName (tagOf c) = true := by
  obtain ⟨tag, attrs, cs, text⟩ := c
  unfold wfTree at h
  simp only [Bool.and_eq_true] at h
  exact h.1.1.1.1.1

theorem attrsFromEntries_append (a b : List (String × YVal)) :
    attrsFromEntries (a ++ b) = attrsFromEntries a ++ attrsFromEntries b := by
  unfold attrsFromEntries
  exact List.filterMap_append a b _

/-- Normalizing the attribute entries: keys are unchanged, values go
through `str_presenter`. -/
theorem ynormPairs_attrs (attrs : List (String × String))
    (h : ∀ a ∈ attrs, wfName a.1 = true) :
    ynormPairs (attrs.map (fun a => ("@" ++ a.1, YVal.str a.2))) =
      attrs.map (fun a => ("@" ++ a.1, YVal.str ((str_presenter a.2).1))) := by
  induction attrs with
  | nil => rfl
  | cons a rest ih =>
    have ha := h a (List.mem_cons_self _ _)
    simp only [List.map_cons, ynormPairs, ynorm]
    rw [at_key_presenter_id (wfName_no_boundary ha),
      ih (fun b hb => h b (List.mem_cons_of_mem _ hb))]

theorem presenter_text_key : (str_presenter "#text").1 = "#text" := by decide

theorem treeOf_map_eq (tg : String) (es : List (String × YVal)) :
    treeOf tg (.map es) =
      .elem tg (attrsFromEntries es) (unfoldChildren es)
        (textFromEntries es) := rfl

/-- The round trip on one element whose parse produced the ordered
mapping of attributes, folded children and text. -/
theorem treeOf_map_case (tag : String) (attrs : List (String × String))
    (cs : List XTree) (text : Option String)
    (hattrs : ∀ a ∈ attrs, wfName a.1 = true)
    (hgrp : grouped (cs.map tagOf) = true)
    (hchildwf : ∀ c ∈ cs, wfTree c = true)
    (ih : ∀ c ∈ cs, treeOf (tagOf c) (ynorm (valOf c)) = normTree c) :
    treeOf tag (ynorm (YVal.map
        (attrs.map (fun a => ("@" ++ a.1, YVal.str a.2)) ++
          foldChildren [] cs ++ textEntries text))) =
      XTree.elem tag (attrs.map (fun a => (a.1, (str_presenter a.2).1)))
        (normForest cs) (text.map (fun t => (str_presenter t).1)) := by
  have htags : ∀ c ∈ cs, (str_presenter (tagOf c)).1 = tagOf c :=
    fun c hc => wfName_presenter_id (wfTree_tagName (hchildwf c hc))
  have htext' : ynormPairs (textEntries text) =
      (match text with
       | none => []
       | some t => [("#text", YVal.str ((str_presenter t).1))]) := by
    cases text with
    | none => rfl
    | some t => simp [textEntries, ynormPairs, ynorm, presenter_text_key]
  have h1 : ynorm (YVal.map
      (attrs.map (fun a => ("@" ++ a.1, YVal.str a.2)) ++
        foldChildren [] cs ++ textEntries text)) =
      YVal.map
        (attrs.map (fun a => ("@" ++ a.1, YVal.str ((str_presenter a.2).1))) ++
          ynormPairs (foldChildren [] cs) ++ ynormPairs (textEntries text)) := by
    show YVal.map (ynormPairs _) = _
    rw [ynormPairs_append, ynormPairs_append, ynormPairs_attrs attrs hattrs]
  have hfold : ynormPairs (foldChildren [] cs) =
      List.foldl (fun a p => pushData a p.1 p.2) []
        (cs.map (fun c => (tagOf c, ynorm (valOf c)))) :=
    ynormPairs_foldChildren cs [] htags (by intro p hp; simp at hp)
  have hkeys : (cs.map (fun c => (tagOf c, ynorm (valOf c)))).map (·.1) =
      cs.map tagOf := by
    rw [List.map_map]
    rfl
  obtain ⟨blocks, hflat, hdistb⟩ :=
    grouped_blocks (cs.map (fun c => (tagOf c, ynorm (valOf c))))
      (by rw [hkeys]; exact hgrp)
  have hfoldblocks : ynormPairs (foldChildren [] cs) =
      blocks.map (fun b => (b.1, foldCombine b.2.1 b.2.2)) := by
    rw [hfold, ← hflat, foldl_push_blocks blocks [] (by simp) hdistb]
    simp
  have hblockkey : ∀ b ∈ blocks, wfName b.1 = true := by
    intro b hb
    have hmem := block_key_mem blocks b hb
    rw [hflat, hkeys] at hmem
    obtain ⟨c, hc, hcc⟩ := List.mem_map.mp hmem
    rw [← hcc]
    exact wfTree_tagName (hchildwf c hc)
  have hblockseq : ∀ b ∈ blocks, isSeqB b.2.1 = false := by
    intro b hb
    have hmem := block_head_mem blocks b hb
    rw [hflat] at hmem
    obtain ⟨c, hc, hcc⟩ := List.mem_map.mp hmem
    have h2 : ynorm (valOf c) = b.2.1 := congrArg Prod.snd hcc
    rw [← h2, ynorm_isSeqB, valOf_not_seq]
  have hE2key : ∀ p ∈ blocks.map (fun b => (b.1, foldCombine b.2.1 b.2.2)),
      wfName p.1 = true := by
    intro p hp
    obtain ⟨b, hb, hbp⟩ := List.mem_map.mp hp
    rw [← hbp]
    exact hblockkey b hb
  have hMkey : ∀ p ∈ (match text with
       | none => ([] : List (String × YVal))
       | some t => [("#text", YVal.str ((str_presenter t).1))]),
      p.1 = "#text" := by
    cases text with
    | none => intro p hp; simp at hp
    | some t =>
      intro p hp
      simp only [List.mem_singleton] at hp
      rw [hp]
  rw [h1, hfoldblocks, htext', treeOf_map_eq]
  have hA : attrsFromEntries
      ((attrs.map (fun a => ("@" ++ a.1, YVal.str ((str_presenter a.2).1))) ++
        blocks.map (fun b => (b.1, foldCombine b.2.1 b.2.2))) ++
       (match text with
        | none => ([] : List (String × YVal))
        | some t => [("#text", YVal.str ((str_presenter t).1))])) =
      attrs.map (fun a => (a.1, (str_presenter a.2).1)) := by
    rw [attrsFromEntries_append, attrsFromEntries_append,
      attrsFromEntries_attrs,
      attrsFromEntries_none _ (fun p hp => wfName_splitNone (hE2key p hp)),
      attrsFromEntries_none _ ?_]
    · simp
    · intro p hp
      rw [hMkey p hp]
      rfl
  have hC : unfoldChildren
      ((attrs.map (fun a => ("@" ++ a.1, YVal.str ((str_presenter a.2).1))) ++
        blocks.map (fun b => (b.1, foldCombine b.2.1 b.2.2))) ++
       (match text with
        | none => ([] : List (String × YVal))
        | some t => [("#text", YVal.str ((str_presenter t).1))])) =
      normForest cs := by
    rw [unfoldChildren_append, unfoldChildren_append,
      unfoldChildren_skip
        (attrs.map (fun a => ("@" ++ a.1, YVal.str ((str_presenter a.2).1))))
        ?_,
      unfoldChildren_expand
        (blocks.map (fun b => (b.1, foldCombine b.2.1 b.2.2))) ?_,
      unfoldChildren_skip _ ?_]
    · rw [expand_blocks blocks hblockseq, hflat]
      simp only [List.nil_append, List.append_nil, List.map_map]
      rw [normForest_eq_map]
      refine List.map_congr_left ?_
      intro c hc
      exact ih c hc
    · intro p hp
      rw [hMkey p hp]
      simp
    · intro p hp
      exact ⟨wfName_splitNone (hE2key p hp), wfName_ne_text (hE2key p hp)⟩
    · intro p hp
      obtain ⟨a, ha, hap⟩ := List.mem_map.mp hp
      rw [← hap]
      simp [splitAttrKey_at]
  have hT : textFromEntries
      ((attrs.map (fun a => ("@" ++ a.1, YVal.str ((str_presenter a.2).1))) ++
        blocks.map (fun b => (b.1, foldCombine b.2.1 b.2.2))) ++
       (match text with
        | none => ([] : List (String × YVal))
        | some t => [("#text", YVal.str ((str_presenter t).1))])) =
      text.map (fun t => (str_presenter t).1) := by
    unfold textFromEntries
    rw [List.filter_append, List.filter_append,
      textFilter_none _ ?_, textFilter_none _ ?_]
    · cases text with
      | none => rfl
      | some t => simp [strOf]
    · intro p hp
      obtain ⟨b, hb, hbp⟩ := List.mem_map.mp hp
      rw [← hbp]
      exact wfName_ne_text (hblockkey b hb)
    · intro p hp
      obtain ⟨a, ha, hap⟩ := List.mem_map.mp hp
      rw [← hap]
      exact at_ne_text a.1
  rw [hA, hC, hT]

/-- C1 (amended): `xml2yaml` followed by `yaml2xml` reproduces a
logically equivalent document — same tags, same attributes, same text up
to the stated newline normalization (`'\r'` dropped from multiline
values) — and the same element order, PROVIDED every group of same-named
siblings is contiguous in the original document; interleaved repeated
sibling tags are regrouped at their first occurrence (see the
counterexample), because xmltodict folds all same-named siblings under
one mapping key. -/
theorem c1_round_trip_grouped (root : XTree) (hwf : wfTree root = true) :
    xml2yaml_then_yaml2xml root = normTree root := by
  have main : ∀ t, wfTree t = true →
      treeOf (tagOf t) (ynorm (valOf t)) = normTree t := by
    refine XTree.indOn _ ?_
    intro tag attrs cs text ih hwft
    simp only [wfTree, Bool.and_eq_true] at hwft
    obtain ⟨⟨⟨⟨⟨hname, hattrsall⟩, hdist⟩, hgrp⟩, htext⟩, hforest⟩ := hwft
    have hattrs : ∀ a ∈ attrs, wfName a.1 = true := by
      intro a ha
      have h := List.all_eq_true.mp hattrsall a ha
      simp only [Bool.and_eq_true] at h
      exact h.1
    have hchild := wfForest_mem hforest
    have hmap := treeOf_map_case tag attrs cs text hattrs hgrp hchild
      (fun c hc => ih c hc (hchild c hc))
    rcases attrs with _ | ⟨a₀, attrs'⟩
    · rcases cs with _ | ⟨c₀, cs'⟩
      · rcases text with _ | t₀
        · simp [tagOf, valOf, ynorm, treeOf, normTree, normForest]
        · simp [tagOf, valOf, ynorm, treeOf, normTree, normForest]
      · exact hmap
    · exact hmap
  unfold xml2yaml_then_yaml2xml
  rw [wfName_presenter_id (wfTree_tagName hwf)]
  exact main root hwf

/-- C1, witness for the amended law: a well-formed tree with contiguous
repeated siblings, attributes and multiline text round-trips to the same
tree with the multiline text's `'\r'` removed. -/
theorem c1_witness :
    wfTree (XTree.elem "proj" [("name", "x"), ("id", "1")]
        [XTree.elem "a" [] [] none,
         XTree.elem "a" [] [] (some "t1\r\nt2"),
         XTree.elem "b" [] [] (some "v")] none) = true ∧
    xml2yaml_then_yaml2xml
        (XTree.elem "proj" [("name", "x"), ("id", "1")]
          [XTree.elem "a" [] [] none,
           XTree.elem "a" [] [] (some "t1\r\nt2"),
           XTree.elem "b" [] [] (some "v")] none) =
      XTree.elem "proj" [("name", "x"), ("id", "1")]
        [XTree.elem "a" [] [] none,
         XTree.elem "a" [] [] (some "t1\nt2"),
         XTree.elem "b" [] [] (some "v")] none := by
  refine ⟨by decide, ?_⟩
  rw [c1_round_trip_grouped _ (by decide)]
  rfl
